import Mathlib

/-!
Formal model of the Lyapynov package: a shallow embedding, over exact real
arithmetic, of `DynamicalSystem.py` (continuous and discrete dynamical
systems, RK4 stepping, batch advancement) and `Lyapunov.py` (mLCE, LCE,
CLV and adjoint-vector computations), together with theorems about the
embedded operations.

Modeling conventions:
* NumPy floating point arrays become functions `Fin d → ℝ` (vectors) and
  `Matrix (Fin d) (Fin p) ℝ`; floating point arithmetic is modeled by exact
  real arithmetic.
* Python methods that mutate `self` become functions returning the updated
  record; methods that mutate nothing return only their value.
* `np.linalg.qr` is modeled by classical Gram-Schmidt (reduced QR with
  nonnegative diagonal of R; NumPy's Householder QR agrees up to per-column
  sign flips, which none of the properties below depend on).
* `np.random.rand` results are taken as explicit arguments.
* The dynamic (shape-polymorphic) behavior of `numpy` for 1-dimensional
  systems is modeled separately by a small `NDArray` fragment.
-/

namespace Lyapynov

/-- Euclidean dot product of two `d`-dimensional real vectors. -/
def dotv {d : ℕ} (u v : Fin d → ℝ) : ℝ := ∑ i, u i * v i

/-- Euclidean norm: `np.linalg.norm` of a 1-d array. -/
noncomputable def normv {d : ℕ} (v : Fin d → ℝ) : ℝ := Real.sqrt (dotv v v)

/-- Model of `w / np.linalg.norm(w)`: componentwise division of a vector by its norm. -/
noncomputable def unitv {d : ℕ} (v : Fin d → ℝ) : Fin d → ℝ := fun i => v i / normv v

/-- Norm of column `j` of a matrix: one entry of `np.linalg.norm(M, axis=0)`. -/
noncomputable def colNorm {d p : ℕ} (M : Matrix (Fin d) (Fin p) ℝ) (j : Fin p) : ℝ :=
  normv (fun i => M i j)

/-- Model of `M / np.linalg.norm(M, axis=0)`: each column divided by its own norm.
This is also `M @ C` for `C = np.diag(1. / np.linalg.norm(M, axis=0))`. -/
noncomputable def normalizeCols {d p : ℕ} (M : Matrix (Fin d) (Fin p) ℝ) :
    Matrix (Fin d) (Fin p) ℝ := fun i j => M i j / colNorm M j

/-- Model of `np.eye(d)[:, :p]`: the first `p` canonical basis vectors as columns. -/
def eyeCols (d p : ℕ) : Matrix (Fin d) (Fin p) ℝ :=
  fun i j => if (i : ℕ) = (j : ℕ) then 1 else 0

/-- The data of `DynamicalSystem.__init__`: initial condition, current state
and time, the vector field `f`, its Jacobian `jac`, and the step `dt`.
The `kwargs` parameter bag is forwarded verbatim to `f` and `jac` on every
call, so in this model it is taken to be closed over inside `f` and `jac`.
The continuous and discrete subclasses add no fields, only methods, hence a
single structure serves both. -/
structure DynamicalSystem (d : ℕ) where
  x0 : Fin d → ℝ
  t0 : ℝ
  x : Fin d → ℝ
  t : ℝ
  f : (Fin d → ℝ) → ℝ → (Fin d → ℝ)
  jac : (Fin d → ℝ) → ℝ → Matrix (Fin d) (Fin d) ℝ
  dt : ℝ

/-- Model of `ContinuousDS.next`: one classical RK4 step of `ẋ = f(x, t)`; the in-place
mutation of `self.x` and `self.t` is modeled by returning the updated record. -/
noncomputable def ContinuousDS.next {d : ℕ} (s : DynamicalSystem d) : DynamicalSystem d :=
  let k1 := s.f s.x s.t
  let k2 := s.f (fun i => s.x i + (s.dt / 2) * k1 i) (s.t + s.dt / 2)
  let k3 := s.f (fun i => s.x i + (s.dt / 2) * k2 i) (s.t + s.dt / 2)
  let k4 := s.f (fun i => s.x i + s.dt * k3 i) (s.t + s.dt)
  { s with
    x := fun i => s.x i + (s.dt / 6) * (k1 i + 2 * k2 i + 2 * k3 i + k4 i)
    t := s.t + s.dt }

/-- Model of `ContinuousDS.next_LTM` on a `dim × k` bundle: RK4 applied to the
variational equation with the Jacobian evaluated once, at the current
(pre-step) state and time.  The method writes no attribute of `self`, so it
is modeled as a pure function returning the new bundle. -/
noncomputable def ContinuousDS.next_LTM {d p : ℕ} (s : DynamicalSystem d)
    (W : Matrix (Fin d) (Fin p) ℝ) : Matrix (Fin d) (Fin p) ℝ :=
  let jacobian := s.jac s.x s.t
  let k1 := jacobian * W
  let k2 := jacobian * (W + (s.dt / 2) • k1)
  let k3 := jacobian * (W + (s.dt / 2) • k2)
  let k4 := jacobian * (W + s.dt • k3)
  W + (s.dt / 6) • (k1 + (2 : ℝ) • k2 + (2 : ℝ) • k3 + k4)

/-- The method-call view of `ContinuousDS.next_LTM`: a Python method call
returns its value together with (possibly mutated) `self`; this method body
contains no assignment to `self`, so the returned system is `s` itself. -/
noncomputable def ContinuousDS.next_LTM_call {d p : ℕ} (s : DynamicalSystem d)
    (W : Matrix (Fin d) (Fin p) ℝ) : Matrix (Fin d) (Fin p) ℝ × DynamicalSystem d :=
  (ContinuousDS.next_LTM s W, s)

/-- Model of `ContinuousDS.next_LTM` applied to a single deviation vector
(1-d `numpy` array), as used by `mLCE`. -/
noncomputable def ContinuousDS.next_LTM_vec {d : ℕ} (s : DynamicalSystem d)
    (w : Fin d → ℝ) : Fin d → ℝ :=
  let jacobian := s.jac s.x s.t
  let k1 := jacobian.mulVec w
  let k2 := jacobian.mulVec (w + (s.dt / 2) • k1)
  let k3 := jacobian.mulVec (w + (s.dt / 2) • k2)
  let k4 := jacobian.mulVec (w + s.dt • k3)
  w + (s.dt / 6) • (k1 + (2 : ℝ) • k2 + (2 : ℝ) • k3 + k4)

/-- Model of `DiscreteDS.next`: `x ← f(x, t)`, `t ← t + dt`. -/
def DiscreteDS.next {d : ℕ} (s : DynamicalSystem d) : DynamicalSystem d :=
  { s with x := s.f s.x s.t, t := s.t + s.dt }

/-- Model of `DiscreteDS.next_LTM` on a `dim × p` bundle: a single Jacobian product.
In the typed model the `if self.dim == 1: return np.array([res])` reshape is
invisible (shapes are static); the dynamic shape behavior of that branch is
modeled faithfully by `NDDiscreteDS.next_LTM` in the NDArray fragment below. -/
def DiscreteDS.next_LTM {d p : ℕ} (s : DynamicalSystem d)
    (W : Matrix (Fin d) (Fin p) ℝ) : Matrix (Fin d) (Fin p) ℝ :=
  s.jac s.x s.t * W

/-- Model of `DiscreteDS.next_LTM` applied to a single deviation vector. -/
def DiscreteDS.next_LTM_vec {d : ℕ} (s : DynamicalSystem d)
    (w : Fin d → ℝ) : Fin d → ℝ :=
  (s.jac s.x s.t).mulVec w

/-- The `keep_traj` branch of `DynamicalSystem.forward`: apply `next` `n`
times, recording the initial state and the state after every step.  `next` is
the abstract single-step method, supplied by the subclass. -/
def forwardKeep {d : ℕ} (next : DynamicalSystem d → DynamicalSystem d) :
    DynamicalSystem d → ℕ → DynamicalSystem d × List (Fin d → ℝ)
  | s, 0 => (s, [s.x])
  | s, n + 1 =>
      let r := forwardKeep next (next s) n
      (r.1, s.x :: r.2)

/-- Model of `DynamicalSystem.forward(n_steps, keep_traj)`: advance the system
`n_steps` steps; if `keep_traj`, also return the `(n_steps + 1)`-row
trajectory (initial state included). -/
def forward {d : ℕ} (next : DynamicalSystem d → DynamicalSystem d)
    (s : DynamicalSystem d) (n : ℕ) (keep : Bool) :
    DynamicalSystem d × Option (List (Fin d → ℝ)) :=
  if keep then ((forwardKeep next s n).1, some (forwardKeep next s n).2)
  else (next^[n] s, none)

lemma map_range_succ_left {α : Type _} (f : ℕ → α) (n : ℕ) :
    (List.range (n + 1)).map f = f 0 :: (List.range n).map fun i => f (i + 1) := by
  rw [List.range_succ_eq_map]
  simp [Function.comp_def]

lemma forwardKeep_fst {d : ℕ} (next : DynamicalSystem d → DynamicalSystem d)
    (s : DynamicalSystem d) (n : ℕ) :
    (forwardKeep next s n).1 = next^[n] s := by
  induction n generalizing s with
  | zero => rfl
  | succ n ih =>
      rw [forwardKeep, ih, Function.iterate_succ_apply]

lemma forwardKeep_snd {d : ℕ} (next : DynamicalSystem d → DynamicalSystem d)
    (s : DynamicalSystem d) (n : ℕ) :
    (forwardKeep next s n).2 = (List.range (n + 1)).map fun i => (next^[i] s).x := by
  induction n generalizing s with
  | zero =>
      show [s.x] = _
      rw [map_range_succ_left]
      simp
  | succ n ih =>
      rw [forwardKeep]
      show s.x :: (forwardKeep next (next s) n).2 = _
      rw [ih, map_range_succ_left (fun i => (next^[i] s).x) (n + 1)]
      simp [Function.iterate_succ_apply]

lemma forwardKeep_spec {d : ℕ} (next : DynamicalSystem d → DynamicalSystem d)
    (s : DynamicalSystem d) (n : ℕ) :
    forwardKeep next s n =
      (next^[n] s, (List.range (n + 1)).map fun i => (next^[i] s).x) := by
  rw [Prod.ext_iff]
  exact ⟨forwardKeep_fst next s n, forwardKeep_snd next s n⟩

lemma forward_one {d : ℕ} (next : DynamicalSystem d → DynamicalSystem d)
    (s : DynamicalSystem d) : (forward next s 1 false).1 = next s := by
  simp [forward]

/-- A concrete one-dimensional system used to instantiate witness theorems. -/
def trivSys : DynamicalSystem 1 where
  x0 := fun _ => 0
  t0 := 0
  x := fun _ => 0
  t := 0
  f := fun x _ => x
  jac := fun _ _ => 1
  dt := 1

/-- C5: for every system (the single-step method `next` of either subclass is
an arbitrary function here), `forward(n, True)` returns a buffer of exactly
`n + 1` rows, row `0` being the pre-call state and row `i` the state after
`i` steps; and iterating `forward(1, False)` `n` times yields exactly the
same final system as one call `forward(n, False)` (stepping is
deterministic: in this pure model `next` is a function of the system alone,
faithful to the source where `step`/`tangent_step` use no randomness). -/
theorem forward_traj_rows_and_determinism {d : ℕ}
    (next : DynamicalSystem d → DynamicalSystem d) (s : DynamicalSystem d) (n : ℕ) :
    (forward next s n true).2 = some ((List.range (n + 1)).map fun i => (next^[i] s).x)
    ∧ ((forward next s n true).2.getD []).length = n + 1
    ∧ ((forward next s n true).2.getD []).getD 0 (fun _ => 0) = s.x
    ∧ (forward next s n true).1 = next^[n] s
    ∧ (fun u => (forward next u 1 false).1)^[n] s = (forward next s n false).1 := by
  have hfun : (fun u : DynamicalSystem d => (forward next u 1 false).1) = next := by
    funext u
    simp [forward]
  refine ⟨?_, ?_, ?_, ?_, ?_⟩
  · simp [forward, forwardKeep_snd]
  · simp [forward, forwardKeep_snd]
  · rw [show (forward next s n true).2 = some ((List.range (n + 1)).map
        fun i => (next^[i] s).x) by simp [forward, forwardKeep_snd]]
    rw [map_range_succ_left]
    simp
  · simp [forward, forwardKeep_fst]
  · rw [hfun]
    simp [forward]

/-- C8: `ContinuousDS.next` performs one classical RK4 step on the state,
advances time by exactly `dt`, and changes nothing else of the system
(the method mutates `self` in place and returns `None`; here that is the
returned record, all fields but `x` and `t` untouched). -/
theorem continuous_step_is_rk4 {d : ℕ} (s : DynamicalSystem d) :
    (let k1 := s.f s.x s.t
     let k2 := s.f (fun i => s.x i + (s.dt / 2) * k1 i) (s.t + s.dt / 2)
     let k3 := s.f (fun i => s.x i + (s.dt / 2) * k2 i) (s.t + s.dt / 2)
     let k4 := s.f (fun i => s.x i + s.dt * k3 i) (s.t + s.dt)
     (ContinuousDS.next s).x
        = fun i => s.x i + (s.dt / 6) * (k1 i + 2 * k2 i + 2 * k3 i + k4 i))
    ∧ (ContinuousDS.next s).t = s.t + s.dt
    ∧ (ContinuousDS.next s).f = s.f
    ∧ (ContinuousDS.next s).jac = s.jac
    ∧ (ContinuousDS.next s).dt = s.dt
    ∧ (ContinuousDS.next s).x0 = s.x0
    ∧ (ContinuousDS.next s).t0 = s.t0 :=
  ⟨rfl, rfl, rfl, rfl, rfl, rfl, rfl⟩

/-- C4: `ContinuousDS.next_LTM` returns `W + (dt/6)·(k1 + 2k2 + 2k3 + k4)`
where all four stages use the single Jacobian evaluated at the current
pre-step state and time.  "Evaluated exactly once" is captured
extensionally: the result depends on `jac` only through its value at the
frozen `(x, t)` (second conjunct), so no other evaluation point can matter.
The method leaves the system unchanged (third conjunct, the method-call
view), and the frozen-Jacobian RK4 equals the degree-4 Taylor polynomial of
`exp(dt·J)` applied to `W` (fourth conjunct), which is exactly the
documented "one constant Jacobian per call" simplification. -/
theorem continuous_tangent_frozen_jacobian {d p : ℕ} :
    (∀ (s : DynamicalSystem d) (W : Matrix (Fin d) (Fin p) ℝ),
      ContinuousDS.next_LTM s W =
        (let J := s.jac s.x s.t
         let k1 := J * W
         let k2 := J * (W + (s.dt / 2) • k1)
         let k3 := J * (W + (s.dt / 2) • k2)
         let k4 := J * (W + s.dt • k3)
         W + (s.dt / 6) • (k1 + (2 : ℝ) • k2 + (2 : ℝ) • k3 + k4)))
    ∧ (∀ (s₁ s₂ : DynamicalSystem d) (W : Matrix (Fin d) (Fin p) ℝ),
        s₁.dt = s₂.dt → s₁.jac s₁.x s₁.t = s₂.jac s₂.x s₂.t →
        ContinuousDS.next_LTM s₁ W = ContinuousDS.next_LTM s₂ W)
    ∧ (∀ (s : DynamicalSystem d) (W : Matrix (Fin d) (Fin p) ℝ),
        ContinuousDS.next_LTM_call s W = (ContinuousDS.next_LTM s W, s))
    ∧ (∀ (s : DynamicalSystem d) (W : Matrix (Fin d) (Fin p) ℝ),
        (let J := s.jac s.x s.t
         ContinuousDS.next_LTM s W =
           W + s.dt • (J * W) + (s.dt ^ 2 / 2) • (J * (J * W))
             + (s.dt ^ 3 / 6) • (J * (J * (J * W)))
             + (s.dt ^ 4 / 24) • (J * (J * (J * (J * W)))))) := by
  refine ⟨fun s W => rfl, ?_, fun s W => rfl, ?_⟩
  · intro s₁ s₂ W hdt hjac
    simp only [ContinuousDS.next_LTM, hdt, hjac]
  · intro s W
    show ContinuousDS.next_LTM s W = _
    simp only [ContinuousDS.next_LTM, Matrix.mul_add, Matrix.mul_smul]
    module

/-- Witness for C4: the frozen-Jacobian invariance applied to a concrete
system, both hypotheses discharged at that input. -/
theorem continuous_tangent_frozen_jacobian_witness :
    trivSys.dt = trivSys.dt
    ∧ trivSys.jac trivSys.x trivSys.t = trivSys.jac trivSys.x trivSys.t
    ∧ ContinuousDS.next_LTM trivSys (1 : Matrix (Fin 1) (Fin 1) ℝ)
        = ContinuousDS.next_LTM trivSys 1 :=
  ⟨rfl, rfl, (continuous_tangent_frozen_jacobian).2.1 trivSys trivSys 1 rfl rfl⟩

/-- Column `j` of a matrix, as a total function of a natural index
(zero outside the column range). -/
def colOf {d p : ℕ} (W : Matrix (Fin d) (Fin p) ℝ) (j : ℕ) : Fin d → ℝ :=
  fun i => if h : j < p then W i ⟨j, h⟩ else 0

/-- Classical Gram-Schmidt: the list of the first `j` orthonormalized
columns of `W`.  This models the orthonormal factor produced by
`np.linalg.qr` (which agrees up to per-column sign flips). -/
noncomputable def gsList {d p : ℕ} (W : Matrix (Fin d) (Fin p) ℝ) : ℕ → List (Fin d → ℝ)
  | 0 => []
  | j + 1 =>
      let prev := gsList W j
      let c := colOf W j
      prev ++ [unitv (c - (prev.map fun q => dotv q c • q).sum)]

/-- The `Q` factor of the reduced QR decomposition `np.linalg.qr(W)`. -/
noncomputable def qrQ {d p : ℕ} (W : Matrix (Fin d) (Fin p) ℝ) :
    Matrix (Fin d) (Fin p) ℝ :=
  fun i j => ((gsList W p).getD (j : ℕ) 0) i

/-- The upper-triangular `R` factor of the reduced QR decomposition:
`R[j,k] = ⟨q_j, w_k⟩` for `j ≤ k`, zero below the diagonal. -/
noncomputable def qrR {d p : ℕ} (W : Matrix (Fin d) (Fin p) ℝ) :
    Matrix (Fin p) (Fin p) ℝ :=
  fun j k =>
    if (j : ℕ) ≤ (k : ℕ) then dotv ((gsList W p).getD (j : ℕ) 0) (colOf W (k : ℕ))
    else 0

/-- The body of the `mLCE` computation loop, `keep = False` branch:
carries `(system, w, accumulator)` through the remaining iterations. -/
noncomputable def mLCEloop {d : ℕ} (next : DynamicalSystem d → DynamicalSystem d)
    (nlv : DynamicalSystem d → (Fin d → ℝ) → (Fin d → ℝ)) :
    DynamicalSystem d → (Fin d → ℝ) → ℝ → ℕ →
      DynamicalSystem d × (Fin d → ℝ) × ℝ
  | s, w, acc, 0 => (s, w, acc)
  | s, w, acc, n + 1 =>
      let w1 := nlv s w
      let s1 := (forward next s 1 false).1
      let acc1 := acc + Real.log (normv w1)
      mLCEloop next nlv s1 (unitv w1) acc1 n

/-- The body of the `mLCE` computation loop, `keep = True` branch: also
records `accumulator / (i · dt)` after each iteration, `i` being the
1-based iteration index (the `dt` read from the just-advanced system,
as in the source). -/
noncomputable def mLCEkeepLoop {d : ℕ} (next : DynamicalSystem d → DynamicalSystem d)
    (nlv : DynamicalSystem d → (Fin d → ℝ) → (Fin d → ℝ)) :
    DynamicalSystem d → (Fin d → ℝ) → ℝ → ℕ → ℕ →
      DynamicalSystem d × (Fin d → ℝ) × ℝ × List ℝ
  | s, w, acc, _, 0 => (s, w, acc, [])
  | s, w, acc, i, n + 1 =>
      let w1 := nlv s w
      let s1 := (forward next s 1 false).1
      let acc1 := acc + Real.log (normv w1)
      let r := mLCEkeepLoop next nlv s1 (unitv w1) acc1 (i + 1) n
      (r.1, r.2.1, r.2.2.1, (acc1 / ((i : ℝ) * s1.dt)) :: r.2.2.2)

/-- Model of `mLCE(system, n_forward, n_compute, keep)`.  The raw output of
`np.random.rand(dim)` is the explicit argument `w0` (the source then
normalizes it).  `next`/`nlv` are the `next`/`next_LTM` methods of the
system's class. -/
noncomputable def mLCE {d : ℕ} (next : DynamicalSystem d → DynamicalSystem d)
    (nlv : DynamicalSystem d → (Fin d → ℝ) → (Fin d → ℝ))
    (system : DynamicalSystem d) (n_forward n_compute : ℕ) (keep : Bool)
    (w0 : Fin d → ℝ) : ℝ × Option (List ℝ) :=
  let system1 := (forward next system n_forward false).1
  let w := unitv w0
  if keep then
    let r := mLCEkeepLoop next nlv system1 w 0 1 n_compute
    (r.2.2.1 / ((n_compute : ℝ) * r.1.dt), some r.2.2.2)
  else
    let r := mLCEloop next nlv system1 w 0 n_compute
    (r.2.2 / ((n_compute : ℝ) * r.1.dt), none)

/-- Reference sequence: the normalized deviation vector before iteration
`k` of the `mLCE` loop (started from the post-transient system `s1`). -/
noncomputable def mW {d : ℕ} (next : DynamicalSystem d → DynamicalSystem d)
    (nlv : DynamicalSystem d → (Fin d → ℝ) → (Fin d → ℝ))
    (s1 : DynamicalSystem d) (w0 : Fin d → ℝ) : ℕ → (Fin d → ℝ)
  | 0 => unitv w0
  | k + 1 => unitv (nlv (next^[k] s1) (mW next nlv s1 w0 k))

/-- Reference sequence: the stretched (pre-normalization) deviation vector
produced by iteration `k` of the `mLCE` loop. -/
noncomputable def mStretch {d : ℕ} (next : DynamicalSystem d → DynamicalSystem d)
    (nlv : DynamicalSystem d → (Fin d → ℝ) → (Fin d → ℝ))
    (s1 : DynamicalSystem d) (w0 : Fin d → ℝ) (k : ℕ) : Fin d → ℝ :=
  nlv (next^[k] s1) (mW next nlv s1 w0 k)

/-- Reference sequence: the log-norm accumulator after `i` iterations of
the `mLCE` loop (log taken of the stretched vector, before
renormalization). -/
noncomputable def mAcc {d : ℕ} (next : DynamicalSystem d → DynamicalSystem d)
    (nlv : DynamicalSystem d → (Fin d → ℝ) → (Fin d → ℝ))
    (s1 : DynamicalSystem d) (w0 : Fin d → ℝ) (i : ℕ) : ℝ :=
  ∑ k ∈ Finset.range i, Real.log (normv (mStretch next nlv s1 w0 k))

lemma iterate_dt {d : ℕ} (next : DynamicalSystem d → DynamicalSystem d)
    (hdt : ∀ u, (next u).dt = u.dt) (u : DynamicalSystem d) (k : ℕ) :
    (next^[k] u).dt = u.dt := by
  induction k with
  | zero => rfl
  | succ k ih => rw [Function.iterate_succ_apply', hdt, ih]

lemma mLCEloop_spec {d : ℕ} (next : DynamicalSystem d → DynamicalSystem d)
    (nlv : DynamicalSystem d → (Fin d → ℝ) → (Fin d → ℝ))
    (s1 : DynamicalSystem d) (w0 : Fin d → ℝ) (n c : ℕ) :
    mLCEloop next nlv (next^[c] s1) (mW next nlv s1 w0 c)
        (mAcc next nlv s1 w0 c) n =
      (next^[c + n] s1, mW next nlv s1 w0 (c + n), mAcc next nlv s1 w0 (c + n)) := by
  induction n generalizing c with
  | zero => rfl
  | succ n ih =>
      rw [mLCEloop]
      have hs : (forward next (next^[c] s1) 1 false).1 = next^[c + 1] s1 := by
        rw [forward_one]
        exact (Function.iterate_succ_apply' next c s1).symm
      have hacc : mAcc next nlv s1 w0 c
          + Real.log (normv (nlv (next^[c] s1) (mW next nlv s1 w0 c)))
            = mAcc next nlv s1 w0 (c + 1) := by
        simp only [mAcc]
        rw [Finset.sum_range_succ]
        rfl
      show mLCEloop next nlv (forward next (next^[c] s1) 1 false).1
          (unitv (nlv (next^[c] s1) (mW next nlv s1 w0 c))) _ n = _
      rw [hs, hacc]
      have hw : unitv (nlv (next^[c] s1) (mW next nlv s1 w0 c))
          = mW next nlv s1 w0 (c + 1) := rfl
      rw [hw, ih (c + 1)]
      have : c + 1 + n = c + (n + 1) := by omega
      rw [this]

lemma mLCEkeepLoop_spec {d : ℕ} (next : DynamicalSystem d → DynamicalSystem d)
    (nlv : DynamicalSystem d → (Fin d → ℝ) → (Fin d → ℝ))
    (s1 : DynamicalSystem d) (w0 : Fin d → ℝ) (n c : ℕ) :
    mLCEkeepLoop next nlv (next^[c] s1) (mW next nlv s1 w0 c)
        (mAcc next nlv s1 w0 c) (c + 1) n =
      (next^[c + n] s1, mW next nlv s1 w0 (c + n), mAcc next nlv s1 w0 (c + n),
        (List.range n).map fun m =>
          mAcc next nlv s1 w0 (c + m + 1)
            / (((c + m + 1 : ℕ) : ℝ) * (next^[c + m + 1] s1).dt)) := by
  induction n generalizing c with
  | zero => rfl
  | succ n ih =>
      rw [mLCEkeepLoop]
      have hs : (forward next (next^[c] s1) 1 false).1 = next^[c + 1] s1 := by
        rw [forward_one]
        exact (Function.iterate_succ_apply' next c s1).symm
      have hacc : mAcc next nlv s1 w0 c
          + Real.log (normv (nlv (next^[c] s1) (mW next nlv s1 w0 c)))
            = mAcc next nlv s1 w0 (c + 1) := by
        simp only [mAcc]
        rw [Finset.sum_range_succ]
        rfl
      show (let r := mLCEkeepLoop next nlv (forward next (next^[c] s1) 1 false).1
              (unitv (nlv (next^[c] s1) (mW next nlv s1 w0 c))) _ (c + 1 + 1) n
            (r.1, r.2.1, r.2.2.1, _ :: r.2.2.2)) = _
      rw [hs, hacc]
      have hw : unitv (nlv (next^[c] s1) (mW next nlv s1 w0 c))
          = mW next nlv s1 w0 (c + 1) := rfl
      rw [hw, ih (c + 1)]
      refine Prod.ext (by rw [show c + 1 + n = c + (n + 1) by omega]) ?_
      refine Prod.ext (by rw [show c + 1 + n = c + (n + 1) by omega]) ?_
      refine Prod.ext (by rw [show c + 1 + n = c + (n + 1) by omega]) ?_
      show (mAcc next nlv s1 w0 (c + 1) / (((c + 1 : ℕ) : ℝ) * (next^[c + 1] s1).dt))
          :: ((List.range n).map fun m => mAcc next nlv s1 w0 (c + 1 + m + 1)
               / (((c + 1 + m + 1 : ℕ) : ℝ) * (next^[c + 1 + m + 1] s1).dt)) = _
      rw [map_range_succ_left (fun m => mAcc next nlv s1 w0 (c + m + 1)
        / (((c + m + 1 : ℕ) : ℝ) * (next^[c + m + 1] s1).dt)) n]
      refine congrArg₂ _ (by norm_num) ?_
      refine List.map_congr_left fun m _ => ?_
      have h1 : c + 1 + m + 1 = c + (m + 1) + 1 := by omega
      rw [h1]

/-- C7: `mLCE` first advances the system `n_forward` steps, then iterates
`n_compute` times (tangent step, one system step, accumulate the log-norm of
the *stretched* vector, renormalize); it returns the accumulator divided by
`n_compute · dt`, and with `keep = True` also the history list of length
`n_compute` whose entry `i - 1` (1-based `i`) is the accumulator after `i`
iterations divided by `i · dt`.  `mAcc` is the reference accumulator
`∑_{k<i} log ‖w_k^stretched‖` over the reference sequence `mW`/`mStretch`,
and the hypothesis states that stepping preserves `dt` (true of both
subclasses). -/
theorem mLCE_accumulates_lognorms {d : ℕ}
    (next : DynamicalSystem d → DynamicalSystem d)
    (nlv : DynamicalSystem d → (Fin d → ℝ) → (Fin d → ℝ))
    (system : DynamicalSystem d) (n_forward n_compute : ℕ) (w0 : Fin d → ℝ)
    (hdt : ∀ u, (next u).dt = u.dt) :
    mLCE next nlv system n_forward n_compute true w0 =
      (mAcc next nlv (next^[n_forward] system) w0 n_compute
          / ((n_compute : ℝ) * system.dt),
        some ((List.range n_compute).map fun i =>
          mAcc next nlv (next^[n_forward] system) w0 (i + 1)
            / (((i : ℝ) + 1) * system.dt)))
    ∧ mLCE next nlv system n_forward n_compute false w0 =
      (mAcc next nlv (next^[n_forward] system) w0 n_compute
          / ((n_compute : ℝ) * system.dt), none) := by
  have hforward : (forward next system n_forward false).1 = next^[n_forward] system := by
    simp [forward]
  constructor
  · rw [mLCE]
    simp only [if_pos]
    have h0 := mLCEkeepLoop_spec next nlv (next^[n_forward] system) w0 n_compute 0
    simp only [Function.iterate_zero_apply, Nat.zero_add, zero_add] at h0
    rw [hforward]
    have hw0 : unitv w0 = mW next nlv (next^[n_forward] system) w0 0 := rfl
    have ha0 : (0 : ℝ) = mAcc next nlv (next^[n_forward] system) w0 0 := by
      rw [mAcc, Finset.range_zero, Finset.sum_empty]
    rw [hw0, ha0, h0]
    refine Prod.ext ?_ ?_
    · show mAcc next nlv (next^[n_forward] system) w0 n_compute
          / ((n_compute : ℝ) * (next^[n_compute] (next^[n_forward] system)).dt) = _
      rw [iterate_dt next hdt _ n_compute, iterate_dt next hdt _ n_forward]
    · show some _ = some _
      refine congrArg _ (List.map_congr_left fun m hm => ?_)
      rw [iterate_dt next hdt _ (m + 1), iterate_dt next hdt _ n_forward]
      push_cast
      ring_nf
  · rw [mLCE]
    simp only [if_neg]
    have h0 := mLCEloop_spec next nlv (next^[n_forward] system) w0 n_compute 0
    simp only [Function.iterate_zero_apply, Nat.zero_add, zero_add] at h0
    rw [hforward]
    have hw0 : unitv w0 = mW next nlv (next^[n_forward] system) w0 0 := rfl
    have ha0 : (0 : ℝ) = mAcc next nlv (next^[n_forward] system) w0 0 := by
      rw [mAcc, Finset.range_zero, Finset.sum_empty]
    rw [hw0, ha0, h0]
    refine Prod.ext ?_ rfl
    show mAcc next nlv (next^[n_forward] system) w0 n_compute
        / ((n_compute : ℝ) * (next^[n_compute] (next^[n_forward] system)).dt) = _
    rw [iterate_dt next hdt _ n_compute, iterate_dt next hdt _ n_forward]

/-- Witness for C7: the theorem applied to a concrete discrete system, with
the `dt`-preservation hypothesis discharged there. -/
theorem mLCE_accumulates_lognorms_witness :
    (∀ u : DynamicalSystem 1, (DiscreteDS.next u).dt = u.dt)
    ∧ mLCE DiscreteDS.next DiscreteDS.next_LTM_vec trivSys 0 1 false (fun _ => 1) =
      (mAcc DiscreteDS.next DiscreteDS.next_LTM_vec
          (DiscreteDS.next^[0] trivSys) (fun _ => 1) 1 / (((1 : ℕ) : ℝ) * trivSys.dt),
        none) :=
  ⟨fun _ => rfl,
    (mLCE_accumulates_lognorms DiscreteDS.next DiscreteDS.next_LTM_vec trivSys 0 1
      (fun _ => 1) (fun _ => rfl)).2⟩

/-- The body of the `LCE` computation loop, `keep = False` branch: carries
`(system, bundle, accumulators)`; each iteration applies the tangent map to
the whole bundle, advances the system one step, QR-decomposes the bundle,
adds `log |R[j,j]|` to accumulator `j`, and replaces the bundle with `Q`. -/
noncomputable def LCEloop {d p : ℕ} (next : DynamicalSystem d → DynamicalSystem d)
    (nl : DynamicalSystem d → Matrix (Fin d) (Fin p) ℝ → Matrix (Fin d) (Fin p) ℝ) :
    DynamicalSystem d → Matrix (Fin d) (Fin p) ℝ → (Fin p → ℝ) → ℕ →
      DynamicalSystem d × Matrix (Fin d) (Fin p) ℝ × (Fin p → ℝ)
  | s, W, acc, 0 => (s, W, acc)
  | s, W, acc, n + 1 =>
      let W1 := nl s W
      let s1 := (forward next s 1 false).1
      let R := qrR W1
      LCEloop next nl s1 (qrQ W1) (fun j => acc j + Real.log |R j j|) n

/-- The body of the `LCE` computation loop, `keep = True` branch: also
records the running estimate row `LCE[j] / (i · dt)` after each iteration
(1-based index `i`, `dt` read from the just-advanced system). -/
noncomputable def LCEkeepLoop {d p : ℕ} (next : DynamicalSystem d → DynamicalSystem d)
    (nl : DynamicalSystem d → Matrix (Fin d) (Fin p) ℝ → Matrix (Fin d) (Fin p) ℝ) :
    DynamicalSystem d → Matrix (Fin d) (Fin p) ℝ → (Fin p → ℝ) → ℕ → ℕ →
      DynamicalSystem d × Matrix (Fin d) (Fin p) ℝ × (Fin p → ℝ) × List (Fin p → ℝ)
  | s, W, acc, _, 0 => (s, W, acc, [])
  | s, W, acc, i, n + 1 =>
      let W1 := nl s W
      let s1 := (forward next s 1 false).1
      let R := qrR W1
      let acc1 := fun j => acc j + Real.log |R j j|
      let r := LCEkeepLoop next nl s1 (qrQ W1) acc1 (i + 1) n
      (r.1, r.2.1, r.2.2.1, (fun j => acc1 j / ((i : ℝ) * s1.dt)) :: r.2.2.2)

/-- Model of `LCE(system, p, n_forward, n_compute, keep)`: the bundle starts as the
first `p` canonical basis vectors (`np.eye(dim)[:, :p]`), the accumulators
at zero. -/
noncomputable def LCE {d p : ℕ} (next : DynamicalSystem d → DynamicalSystem d)
    (nl : DynamicalSystem d → Matrix (Fin d) (Fin p) ℝ → Matrix (Fin d) (Fin p) ℝ)
    (system : DynamicalSystem d) (n_forward n_compute : ℕ) (keep : Bool) :
    (Fin p → ℝ) × Option (List (Fin p → ℝ)) :=
  let system1 := (forward next system n_forward false).1
  let W := eyeCols d p
  if keep then
    let r := LCEkeepLoop next nl system1 W (fun _ => 0) 1 n_compute
    (fun j => r.2.2.1 j / ((n_compute : ℝ) * r.1.dt), some r.2.2.2)
  else
    let r := LCEloop next nl system1 W (fun _ => 0) n_compute
    (fun j => r.2.2 j / ((n_compute : ℝ) * r.1.dt), none)

/-- Reference sequence: the orthonormalized bundle before iteration `k` of
the `LCE` loop (started from the post-transient system `s1`). -/
noncomputable def lceW {d p : ℕ} (next : DynamicalSystem d → DynamicalSystem d)
    (nl : DynamicalSystem d → Matrix (Fin d) (Fin p) ℝ → Matrix (Fin d) (Fin p) ℝ)
    (s1 : DynamicalSystem d) : ℕ → Matrix (Fin d) (Fin p) ℝ
  | 0 => eyeCols d p
  | k + 1 => qrQ (nl (next^[k] s1) (lceW next nl s1 k))

/-- Reference sequence: the `R` factor produced by iteration `k` of the
`LCE` loop. -/
noncomputable def lceR {d p : ℕ} (next : DynamicalSystem d → DynamicalSystem d)
    (nl : DynamicalSystem d → Matrix (Fin d) (Fin p) ℝ → Matrix (Fin d) (Fin p) ℝ)
    (s1 : DynamicalSystem d) (k : ℕ) : Matrix (Fin p) (Fin p) ℝ :=
  qrR (nl (next^[k] s1) (lceW next nl s1 k))

/-- Reference sequence: accumulator `j` after `i` iterations of the `LCE`
loop: `∑_{k<i} log |R_k[j,j]|`, one independent accumulator per column. -/
noncomputable def lceAcc {d p : ℕ} (next : DynamicalSystem d → DynamicalSystem d)
    (nl : DynamicalSystem d → Matrix (Fin d) (Fin p) ℝ → Matrix (Fin d) (Fin p) ℝ)
    (s1 : DynamicalSystem d) (i : ℕ) : Fin p → ℝ :=
  fun j => ∑ k ∈ Finset.range i, Real.log |lceR next nl s1 k j j|

lemma LCEloop_spec {d p : ℕ} (next : DynamicalSystem d → DynamicalSystem d)
    (nl : DynamicalSystem d → Matrix (Fin d) (Fin p) ℝ → Matrix (Fin d) (Fin p) ℝ)
    (s1 : DynamicalSystem d) (n c : ℕ) :
    LCEloop next nl (next^[c] s1) (lceW next nl s1 c) (lceAcc next nl s1 c) n =
      (next^[c + n] s1, lceW next nl s1 (c + n), lceAcc next nl s1 (c + n)) := by
  induction n generalizing c with
  | zero => rfl
  | succ n ih =>
      rw [LCEloop]
      have hs : (forward next (next^[c] s1) 1 false).1 = next^[c + 1] s1 := by
        rw [forward_one]
        exact (Function.iterate_succ_apply' next c s1).symm
      have hacc : (fun j => lceAcc next nl s1 c j
          + Real.log |qrR (nl (next^[c] s1) (lceW next nl s1 c)) j j|)
            = lceAcc next nl s1 (c + 1) := by
        funext j
        simp only [lceAcc]
        rw [Finset.sum_range_succ]
        rfl
      show LCEloop next nl (forward next (next^[c] s1) 1 false).1
          (qrQ (nl (next^[c] s1) (lceW next nl s1 c))) _ n = _
      rw [hs, hacc]
      have hw : qrQ (nl (next^[c] s1) (lceW next nl s1 c))
          = lceW next nl s1 (c + 1) := rfl
      rw [hw, ih (c + 1)]
      rw [show c + 1 + n = c + (n + 1) by omega]

lemma LCEkeepLoop_spec {d p : ℕ} (next : DynamicalSystem d → DynamicalSystem d)
    (nl : DynamicalSystem d → Matrix (Fin d) (Fin p) ℝ → Matrix (Fin d) (Fin p) ℝ)
    (s1 : DynamicalSystem d) (n c : ℕ) :
    LCEkeepLoop next nl (next^[c] s1) (lceW next nl s1 c) (lceAcc next nl s1 c)
        (c + 1) n =
      (next^[c + n] s1, lceW next nl s1 (c + n), lceAcc next nl s1 (c + n),
        (List.range n).map fun m => fun j =>
          lceAcc next nl s1 (c + m + 1) j
            / (((c + m + 1 : ℕ) : ℝ) * (next^[c + m + 1] s1).dt)) := by
  induction n generalizing c with
  | zero => rfl
  | succ n ih =>
      rw [LCEkeepLoop]
      have hs : (forward next (next^[c] s1) 1 false).1 = next^[c + 1] s1 := by
        rw [forward_one]
        exact (Function.iterate_succ_apply' next c s1).symm
      have hacc : (fun j => lceAcc next nl s1 c j
          + Real.log |qrR (nl (next^[c] s1) (lceW next nl s1 c)) j j|)
            = lceAcc next nl s1 (c + 1) := by
        funext j
        simp only [lceAcc]
        rw [Finset.sum_range_succ]
        rfl
      show (let r := LCEkeepLoop next nl (forward next (next^[c] s1) 1 false).1
              (qrQ (nl (next^[c] s1) (lceW next nl s1 c))) _ (c + 1 + 1) n
            (r.1, r.2.1, r.2.2.1, _ :: r.2.2.2)) = _
      rw [hs, hacc]
      have hw : qrQ (nl (next^[c] s1) (lceW next nl s1 c))
          = lceW next nl s1 (c + 1) := rfl
      rw [hw, ih (c + 1)]
      refine Prod.ext (by rw [show c + 1 + n = c + (n + 1) by omega]) ?_
      refine Prod.ext (by rw [show c + 1 + n = c + (n + 1) by omega]) ?_
      refine Prod.ext (by rw [show c + 1 + n = c + (n + 1) by omega]) ?_
      show (fun j => lceAcc next nl s1 (c + 1) j
              / (((c + 1 : ℕ) : ℝ) * (next^[c + 1] s1).dt))
          :: ((List.range n).map fun m => fun j => lceAcc next nl s1 (c + 1 + m + 1) j
               / (((c + 1 + m + 1 : ℕ) : ℝ) * (next^[c + 1 + m + 1] s1).dt)) = _
      rw [map_range_succ_left (fun m => fun j => lceAcc next nl s1 (c + m + 1) j
        / (((c + m + 1 : ℕ) : ℝ) * (next^[c + m + 1] s1).dt)) n]
      refine congrArg₂ _ (by norm_num) ?_
      refine List.map_congr_left fun m _ => ?_
      rw [show c + 1 + m + 1 = c + (m + 1) + 1 by omega]

lemma LCE_keep_closed {d p : ℕ} (next : DynamicalSystem d → DynamicalSystem d)
    (nl : DynamicalSystem d → Matrix (Fin d) (Fin p) ℝ → Matrix (Fin d) (Fin p) ℝ)
    (system : DynamicalSystem d) (n_forward n_compute : ℕ)
    (hdt : ∀ u, (next u).dt = u.dt) :
    LCE next nl system n_forward n_compute true =
      (fun j => lceAcc next nl (next^[n_forward] system) n_compute j
          / ((n_compute : ℝ) * system.dt),
        some ((List.range n_compute).map fun i => fun j =>
          lceAcc next nl (next^[n_forward] system) (i + 1) j
            / (((i : ℝ) + 1) * system.dt))) := by
  have hforward : (forward next system n_forward false).1 = next^[n_forward] system := by
    simp [forward]
  rw [LCE]
  simp only [if_pos]
  have h0 := LCEkeepLoop_spec next nl (next^[n_forward] system) n_compute 0
  simp only [Function.iterate_zero_apply, Nat.zero_add, zero_add] at h0
  rw [hforward]
  have hw0 : eyeCols d p = lceW next nl (next^[n_forward] system) 0 := rfl
  have ha0 : (fun _ : Fin p => (0 : ℝ)) = lceAcc next nl (next^[n_forward] system) 0 := by
    funext j
    rw [lceAcc, Finset.range_zero, Finset.sum_empty]
  rw [hw0, ha0, h0]
  refine Prod.ext ?_ ?_
  · show (fun j => lceAcc next nl (next^[n_forward] system) n_compute j
        / ((n_compute : ℝ) * (next^[n_compute] (next^[n_forward] system)).dt)) = _
    rw [iterate_dt next hdt _ n_compute, iterate_dt next hdt _ n_forward]
  · show some _ = some _
    refine congrArg _ (List.map_congr_left fun m hm => ?_)
    funext j
    rw [iterate_dt next hdt _ (m + 1), iterate_dt next hdt _ n_forward]
    push_cast
    ring_nf

lemma LCE_nokeep_closed {d p : ℕ} (next : DynamicalSystem d → DynamicalSystem d)
    (nl : DynamicalSystem d → Matrix (Fin d) (Fin p) ℝ → Matrix (Fin d) (Fin p) ℝ)
    (system : DynamicalSystem d) (n_forward n_compute : ℕ)
    (hdt : ∀ u, (next u).dt = u.dt) :
    LCE next nl system n_forward n_compute false =
      (fun j => lceAcc next nl (next^[n_forward] system) n_compute j
          / ((n_compute : ℝ) * system.dt), none) := by
  have hforward : (forward next system n_forward false).1 = next^[n_forward] system := by
    simp [forward]
  rw [LCE]
  simp only [if_neg]
  have h0 := LCEloop_spec next nl (next^[n_forward] system) n_compute 0
  simp only [Function.iterate_zero_apply, Nat.zero_add, zero_add] at h0
  rw [hforward]
  have hw0 : eyeCols d p = lceW next nl (next^[n_forward] system) 0 := rfl
  have ha0 : (fun _ : Fin p => (0 : ℝ)) = lceAcc next nl (next^[n_forward] system) 0 := by
    funext j
    rw [lceAcc, Finset.range_zero, Finset.sum_empty]
  rw [hw0, ha0, h0]
  refine Prod.ext ?_ rfl
  show (fun j => lceAcc next nl (next^[n_forward] system) n_compute j
      / ((n_compute : ℝ) * (next^[n_compute] (next^[n_forward] system)).dt)) = _
  rw [iterate_dt next hdt _ n_compute, iterate_dt next hdt _ n_forward]

/-- C6: `LCE` advances the system `n_forward` steps, initializes the bundle
to the first `p` canonical basis vectors, and on each of the `n_compute`
iterations applies the tangent map, advances one step, QR-decomposes, adds
`log |R[j,j]|` to the independent accumulator `j` and replaces the bundle
with `Q` (reference recurrence `lceW`/`lceR`/`lceAcc`); the returned
exponents are the accumulators divided by `n_compute · dt`, and with
`keep = True` the history row `i - 1` is `accumulator j / (i · dt)` after
iteration `i`.  The hypothesis says stepping preserves `dt` (true of both
subclasses). -/
theorem LCE_qr_accumulation {d p : ℕ} (next : DynamicalSystem d → DynamicalSystem d)
    (nl : DynamicalSystem d → Matrix (Fin d) (Fin p) ℝ → Matrix (Fin d) (Fin p) ℝ)
    (system : DynamicalSystem d) (n_forward n_compute : ℕ)
    (hdt : ∀ u, (next u).dt = u.dt) :
    LCE next nl system n_forward n_compute true =
      (fun j => lceAcc next nl (next^[n_forward] system) n_compute j
          / ((n_compute : ℝ) * system.dt),
        some ((List.range n_compute).map fun i => fun j =>
          lceAcc next nl (next^[n_forward] system) (i + 1) j
            / (((i : ℝ) + 1) * system.dt)))
    ∧ LCE next nl system n_forward n_compute false =
      (fun j => lceAcc next nl (next^[n_forward] system) n_compute j
          / ((n_compute : ℝ) * system.dt), none) :=
  ⟨LCE_keep_closed next nl system n_forward n_compute hdt,
    LCE_nokeep_closed next nl system n_forward n_compute hdt⟩

/-- Witness for C6: the theorem applied to a concrete discrete system, the
`dt`-preservation hypothesis discharged there. -/
theorem LCE_qr_accumulation_witness :
    (∀ u : DynamicalSystem 1, (DiscreteDS.next u).dt = u.dt)
    ∧ LCE DiscreteDS.next (@DiscreteDS.next_LTM 1 1) trivSys 0 1 false =
      (fun j => lceAcc DiscreteDS.next (@DiscreteDS.next_LTM 1 1)
          (DiscreteDS.next^[0] trivSys) 1 j / (((1 : ℕ) : ℝ) * trivSys.dt), none) :=
  ⟨fun _ => rfl,
    (LCE_qr_accumulation DiscreteDS.next (@DiscreteDS.next_LTM 1 1) trivSys 0 1
      (fun _ => rfl)).2⟩

/-- C10: running `LCE` with `keep = True` and with `keep = False` from the
same initial system yields the same final exponent vector, and (for
`n_compute ≥ 1`) the last history row equals the returned exponents. -/
theorem LCE_keep_and_nokeep_agree {d p : ℕ}
    (next : DynamicalSystem d → DynamicalSystem d)
    (nl : DynamicalSystem d → Matrix (Fin d) (Fin p) ℝ → Matrix (Fin d) (Fin p) ℝ)
    (system : DynamicalSystem d) (n_forward n_compute : ℕ)
    (hdt : ∀ u, (next u).dt = u.dt) :
    (LCE next nl system n_forward n_compute true).1
      = (LCE next nl system n_forward n_compute false).1
    ∧ (1 ≤ n_compute → ∀ j,
        (((LCE next nl system n_forward n_compute true).2.getD []).getD
            (n_compute - 1) (fun _ => 0)) j
          = (LCE next nl system n_forward n_compute true).1 j) := by
  rw [LCE_keep_closed next nl system n_forward n_compute hdt,
    LCE_nokeep_closed next nl system n_forward n_compute hdt]
  refine ⟨rfl, fun hn j => ?_⟩
  have hcast : (((n_compute - 1 : ℕ) : ℝ) + 1) = (n_compute : ℝ) := by
    rw [Nat.cast_sub hn]
    norm_num
  show ((List.range n_compute).map fun i => fun j =>
      lceAcc next nl (next^[n_forward] system) (i + 1) j
        / (((i : ℝ) + 1) * system.dt)).getD (n_compute - 1) (fun _ => 0) j = _
  rw [List.getD_eq_getElem?_getD, List.getElem?_map,
    List.getElem?_range (by omega : n_compute - 1 < n_compute)]
  simp only [Option.map_some', Option.getD_some]
  show lceAcc next nl (next^[n_forward] system) (n_compute - 1 + 1) j
      / ((((n_compute - 1 : ℕ) : ℝ) + 1) * system.dt)
    = lceAcc next nl (next^[n_forward] system) n_compute j
      / ((n_compute : ℝ) * system.dt)
  rw [show n_compute - 1 + 1 = n_compute by omega, hcast]

/-- Witness for C10: the theorem applied to a concrete discrete system, both
hypotheses discharged there. -/
theorem LCE_keep_and_nokeep_agree_witness :
    (∀ u : DynamicalSystem 1, (DiscreteDS.next u).dt = u.dt) ∧ 1 ≤ 1
    ∧ (LCE DiscreteDS.next (@DiscreteDS.next_LTM 1 1) trivSys 0 1 true).1
        = (LCE DiscreteDS.next (@DiscreteDS.next_LTM 1 1) trivSys 0 1 false).1 :=
  ⟨fun _ => rfl, le_refl 1,
    (LCE_keep_and_nokeep_agree DiscreteDS.next (@DiscreteDS.next_LTM 1 1) trivSys 0 1
      (fun _ => rfl)).1⟩

/-- Model of `np.linalg.solve(A, B)`: the solution `X` of `A·X = B`.  NumPy raises on
an exactly singular `A`; in `CLV` the solves are not guarded, so the result
is only meaningful for invertible `R` (on singular input `Matrix.inv` below
returns the junk value `0`, which no property here relies on). -/
noncomputable def npSolve {p : ℕ} (A B : Matrix (Fin p) (Fin p) ℝ) :
    Matrix (Fin p) (Fin p) ℝ := A⁻¹ * B

/-- One step of the backward recursion of `CLV`: normalize the columns of
`A` (`C = np.diag(1/‖col‖)`, `B = A @ C`), then solve `R · A' = B`. -/
noncomputable def backStep {p : ℕ} (R A : Matrix (Fin p) (Fin p) ℝ) :
    Matrix (Fin p) (Fin p) ℝ := npSolve R (normalizeCols A)

/-- Model of `for R in reversed(R_list2): ... A = solve(R, B)`: fold the backward
step over the stored `R` factors in reverse chronological order. -/
noncomputable def backConverge {p : ℕ} (Rs : List (Matrix (Fin p) (Fin p) ℝ))
    (A : Matrix (Fin p) (Fin p) ℝ) : Matrix (Fin p) (Fin p) ℝ :=
  Rs.reverse.foldl (fun acc R => backStep R acc) A

/-- One iteration of the forward phases of `CLV`: apply the tangent map to
the bundle, QR-decompose, advance the system one step; returns the new
`(system, Q)` pair together with the `R` factor. -/
noncomputable def clvStep {d p : ℕ} (next : DynamicalSystem d → DynamicalSystem d)
    (nl : DynamicalSystem d → Matrix (Fin d) (Fin p) ℝ → Matrix (Fin d) (Fin p) ℝ)
    (sW : DynamicalSystem d × Matrix (Fin d) (Fin p) ℝ) :
    (DynamicalSystem d × Matrix (Fin d) (Fin p) ℝ) × Matrix (Fin p) (Fin p) ℝ :=
  let W1 := nl sW.1 sW.2
  (((forward next sW.1 1 false).1, qrQ W1), qrR W1)

/-- Phase A of `CLV`: iterate `clvStep` discarding the `R` factors, letting
the orthonormal bundle converge to the backward Lyapunov vectors. -/
noncomputable def clvPhaseA {d p : ℕ} (next : DynamicalSystem d → DynamicalSystem d)
    (nl : DynamicalSystem d → Matrix (Fin d) (Fin p) ℝ → Matrix (Fin d) (Fin p) ℝ) :
    DynamicalSystem d × Matrix (Fin d) (Fin p) ℝ → ℕ →
      DynamicalSystem d × Matrix (Fin d) (Fin p) ℝ
  | sW, 0 => sW
  | sW, n + 1 => clvPhaseA next nl (clvStep next nl sW).1 n

/-- Phase B of `CLV`: as phase A, but collect the `Q` factors, the `R`
factors and the post-step system states (for the optional trajectory). -/
noncomputable def clvPhaseB {d p : ℕ} (next : DynamicalSystem d → DynamicalSystem d)
    (nl : DynamicalSystem d → Matrix (Fin d) (Fin p) ℝ → Matrix (Fin d) (Fin p) ℝ) :
    DynamicalSystem d × Matrix (Fin d) (Fin p) ℝ → ℕ →
      List (Matrix (Fin d) (Fin p) ℝ) × List (Matrix (Fin p) (Fin p) ℝ)
        × List (Fin d → ℝ) × (DynamicalSystem d × Matrix (Fin d) (Fin p) ℝ)
  | sW, 0 => ([], [], [], sW)
  | sW, n + 1 =>
      let st := clvStep next nl sW
      let r := clvPhaseB next nl st.1 n
      (st.1.2 :: r.1, st.2 :: r.2.1, st.1.1.x :: r.2.2.1, r.2.2.2)

/-- Phase C of `CLV`: as phase A, but collect only the `R` factors
(`R_list2`). -/
noncomputable def clvPhaseC {d p : ℕ} (next : DynamicalSystem d → DynamicalSystem d)
    (nl : DynamicalSystem d → Matrix (Fin d) (Fin p) ℝ → Matrix (Fin d) (Fin p) ℝ) :
    DynamicalSystem d × Matrix (Fin d) (Fin p) ℝ → ℕ →
      List (Matrix (Fin p) (Fin p) ℝ) × (DynamicalSystem d × Matrix (Fin d) (Fin p) ℝ)
  | sW, 0 => ([], sW)
  | sW, n + 1 =>
      let st := clvStep next nl sW
      let r := clvPhaseC next nl st.1 n
      (st.2 :: r.1, r.2)

/-- Model of `Phi_list`: the phase-A endpoint bundle followed by the `Q` factors
collected during phase B. -/
noncomputable def clvPhiList {d p : ℕ} (next : DynamicalSystem d → DynamicalSystem d)
    (nl : DynamicalSystem d → Matrix (Fin d) (Fin p) ℝ → Matrix (Fin d) (Fin p) ℝ)
    (b0 : DynamicalSystem d × Matrix (Fin d) (Fin p) ℝ) (n_B : ℕ) :
    List (Matrix (Fin d) (Fin p) ℝ) :=
  b0.2 :: (clvPhaseB next nl b0 n_B).1

/-- Model of `R_list1`: the `R` factors collected during phase B. -/
noncomputable def clvRList1 {d p : ℕ} (next : DynamicalSystem d → DynamicalSystem d)
    (nl : DynamicalSystem d → Matrix (Fin d) (Fin p) ℝ → Matrix (Fin d) (Fin p) ℝ)
    (b0 : DynamicalSystem d × Matrix (Fin d) (Fin p) ℝ) (n_B : ℕ) :
    List (Matrix (Fin p) (Fin p) ℝ) :=
  (clvPhaseB next nl b0 n_B).2.1

/-- The CLV reconstruction loop over
`zip(reversed(Phi_list[:-1]), reversed(R_list1))`: each step advances the
backward recursion on `A` and collects the column-normalized `Q @ A`. -/
noncomputable def clvLoop {d p : ℕ} :
    Matrix (Fin p) (Fin p) ℝ →
      List (Matrix (Fin d) (Fin p) ℝ × Matrix (Fin p) (Fin p) ℝ) →
        List (Matrix (Fin d) (Fin p) ℝ)
  | _, [] => []
  | A, QR :: rest =>
      let A1 := backStep QR.2 A
      normalizeCols (QR.1 * A1) :: clvLoop A1 rest

/-- Model of `CLV(system, p, n_forward, n_A, n_B, n_C, traj, check)`.  The raw output
of `np.triu(np.random.rand(p, p))` that seeds the backward recursion is the
explicit argument `A0`.  Returns the CLV list, the optional trajectory of
the recording window, and the optional system snapshot taken at the start
of phase B (`copy = system.copy()`; a deep copy is the value itself in this
pure model).  `clvB0` is the state at the start of the recording window:
the system forwarded `n_forward` steps and the bundle after the `n_A`
phase-A convergence iterations. -/
noncomputable def clvB0 {d p : ℕ} (next : DynamicalSystem d → DynamicalSystem d)
    (nl : DynamicalSystem d → Matrix (Fin d) (Fin p) ℝ → Matrix (Fin d) (Fin p) ℝ)
    (system : DynamicalSystem d) (n_forward n_A : ℕ) :
    DynamicalSystem d × Matrix (Fin d) (Fin p) ℝ :=
  clvPhaseA next nl ((forward next system n_forward false).1, eyeCols d p) n_A

/-- Model of `CLV(system, p, n_forward, n_A, n_B, n_C, traj, check)` body (the
transient and phase A are factored into `clvB0` above). -/
noncomputable def CLV {d p : ℕ} (next : DynamicalSystem d → DynamicalSystem d)
    (nl : DynamicalSystem d → Matrix (Fin d) (Fin p) ℝ → Matrix (Fin d) (Fin p) ℝ)
    (system : DynamicalSystem d) (n_forward n_A n_B n_C : ℕ) (traj check : Bool)
    (A0 : Matrix (Fin p) (Fin p) ℝ) :
    List (Matrix (Fin d) (Fin p) ℝ) × Option (List (Fin d → ℝ))
      × Option (DynamicalSystem d) :=
  let b0 := clvB0 next nl system n_forward n_A
  let Phi_list := clvPhiList next nl b0 n_B
  let pb := clvPhaseB next nl b0 n_B
  let R_list1 := clvRList1 next nl b0 n_B
  let A1 := backConverge (clvPhaseC next nl pb.2.2.2 n_C).1 A0
  let clvs := (Phi_list.getLastD 0 * A1
      :: clvLoop A1 ((Phi_list.dropLast.reverse).zip R_list1.reverse)).reverse
  (clvs,
    if traj then some (b0.1.x :: pb.2.2.1) else none,
    if check then some b0.1 else none)

/-- Reference sequence: the system at step `k` of the recording window
(counted from the phase-B starting point `b0`). -/
noncomputable def clvSys {d p : ℕ} (next : DynamicalSystem d → DynamicalSystem d)
    (nl : DynamicalSystem d → Matrix (Fin d) (Fin p) ℝ → Matrix (Fin d) (Fin p) ℝ)
    (b0 : DynamicalSystem d × Matrix (Fin d) (Fin p) ℝ) (k : ℕ) : DynamicalSystem d :=
  (clvPhaseA next nl b0 k).1

/-- Reference sequence: the orthonormal bundle at step `k` of the recording
window (so `clvW b0 k` is entry `k` of `Phi_list`). -/
noncomputable def clvW {d p : ℕ} (next : DynamicalSystem d → DynamicalSystem d)
    (nl : DynamicalSystem d → Matrix (Fin d) (Fin p) ℝ → Matrix (Fin d) (Fin p) ℝ)
    (b0 : DynamicalSystem d × Matrix (Fin d) (Fin p) ℝ) (k : ℕ) :
    Matrix (Fin d) (Fin p) ℝ :=
  (clvPhaseA next nl b0 k).2

/-- Reference sequence: the `R` factor produced at step `k` (entry `k` of
`R_list1` for `k < n_B`, of `R_list2` for `n_B ≤ k < n_B + n_C`). -/
noncomputable def clvR {d p : ℕ} (next : DynamicalSystem d → DynamicalSystem d)
    (nl : DynamicalSystem d → Matrix (Fin d) (Fin p) ℝ → Matrix (Fin d) (Fin p) ℝ)
    (b0 : DynamicalSystem d × Matrix (Fin d) (Fin p) ℝ) (k : ℕ) :
    Matrix (Fin p) (Fin p) ℝ :=
  (clvStep next nl (clvPhaseA next nl b0 k)).2

/-- Reference backward recursion: `A` after `m` backward steps driven by the
`R` factors `G 0, G 1, …` (taken in the order the loop consumes them). -/
noncomputable def clvAseq {p : ℕ} (G : ℕ → Matrix (Fin p) (Fin p) ℝ)
    (A : Matrix (Fin p) (Fin p) ℝ) : ℕ → Matrix (Fin p) (Fin p) ℝ
  | 0 => A
  | m + 1 => backStep (G m) (clvAseq G A m)

lemma clvPhaseA_add {d p : ℕ} (next : DynamicalSystem d → DynamicalSystem d)
    (nl : DynamicalSystem d → Matrix (Fin d) (Fin p) ℝ → Matrix (Fin d) (Fin p) ℝ)
    (b0 : DynamicalSystem d × Matrix (Fin d) (Fin p) ℝ) (m n : ℕ) :
    clvPhaseA next nl b0 (m + n) = clvPhaseA next nl (clvPhaseA next nl b0 m) n := by
  induction m generalizing b0 with
  | zero =>
      rw [Nat.zero_add]
      rfl
  | succ m ih =>
      rw [show m + 1 + n = (m + n) + 1 by omega]
      show clvPhaseA next nl (clvStep next nl b0).1 (m + n) = _
      rw [ih]
      rfl

lemma clvPhaseB_spec {d p : ℕ} (next : DynamicalSystem d → DynamicalSystem d)
    (nl : DynamicalSystem d → Matrix (Fin d) (Fin p) ℝ → Matrix (Fin d) (Fin p) ℝ)
    (n : ℕ) (b0 : DynamicalSystem d × Matrix (Fin d) (Fin p) ℝ) :
    clvPhaseB next nl b0 n =
      ((List.range n).map fun k => clvW next nl b0 (k + 1),
        (List.range n).map fun k => clvR next nl b0 k,
        (List.range n).map fun k => (clvSys next nl b0 (k + 1)).x,
        clvPhaseA next nl b0 n) := by
  induction n generalizing b0 with
  | zero => rfl
  | succ n ih =>
      rw [clvPhaseB]
      show ((clvStep next nl b0).1.2 :: (clvPhaseB next nl (clvStep next nl b0).1 n).1,
        (clvStep next nl b0).2 :: (clvPhaseB next nl (clvStep next nl b0).1 n).2.1,
        (clvStep next nl b0).1.1.x :: (clvPhaseB next nl (clvStep next nl b0).1 n).2.2.1,
        (clvPhaseB next nl (clvStep next nl b0).1 n).2.2.2) = _
      rw [ih]
      refine Prod.ext ?_ (Prod.ext ?_ (Prod.ext ?_ ?_))
      · rw [map_range_succ_left (fun k => clvW next nl b0 (k + 1)) n]
        rfl
      · rw [map_range_succ_left (fun k => clvR next nl b0 k) n]
        rfl
      · rw [map_range_succ_left (fun k => (clvSys next nl b0 (k + 1)).x) n]
        rfl
      · rfl

lemma clvPhaseC_spec {d p : ℕ} (next : DynamicalSystem d → DynamicalSystem d)
    (nl : DynamicalSystem d → Matrix (Fin d) (Fin p) ℝ → Matrix (Fin d) (Fin p) ℝ)
    (n : ℕ) (b0 : DynamicalSystem d × Matrix (Fin d) (Fin p) ℝ) :
    clvPhaseC next nl b0 n =
      ((List.range n).map fun k => clvR next nl b0 k, clvPhaseA next nl b0 n) := by
  induction n generalizing b0 with
  | zero => rfl
  | succ n ih =>
      rw [clvPhaseC]
      show ((clvStep next nl b0).2 :: (clvPhaseC next nl (clvStep next nl b0).1 n).1,
        (clvPhaseC next nl (clvStep next nl b0).1 n).2) = _
      rw [ih]
      refine Prod.ext ?_ rfl
      rw [map_range_succ_left (fun k => clvR next nl b0 k) n]
      rfl

lemma clvAseq_shift {p : ℕ} (G : ℕ → Matrix (Fin p) (Fin p) ℝ)
    (A : Matrix (Fin p) (Fin p) ℝ) (m : ℕ) :
    clvAseq (fun k => G (k + 1)) (backStep (G 0) A) m = clvAseq G A (m + 1) := by
  induction m with
  | zero => rfl
  | succ m ih =>
      show backStep (G (m + 1)) (clvAseq (fun k => G (k + 1)) (backStep (G 0) A) m) = _
      rw [ih]
      rfl

lemma clvLoop_map {d p : ℕ} (n : ℕ) (F : ℕ → Matrix (Fin d) (Fin p) ℝ)
    (G : ℕ → Matrix (Fin p) (Fin p) ℝ) (A : Matrix (Fin p) (Fin p) ℝ) :
    clvLoop A ((List.range n).map fun m => (F m, G m)) =
      (List.range n).map fun m => normalizeCols (F m * clvAseq G A (m + 1)) := by
  induction n generalizing F G A with
  | zero => rfl
  | succ n ih =>
      rw [map_range_succ_left (fun m => (F m, G m)) n, clvLoop]
      rw [ih (fun m => F (m + 1)) (fun m => G (m + 1)) (backStep (G 0) A)]
      rw [map_range_succ_left (fun m => normalizeCols (F m * clvAseq G A (m + 1))) n]
      refine congrArg₂ _ rfl ?_
      refine List.map_congr_left fun m _ => ?_
      rw [clvAseq_shift]

lemma reverse_map_range {α : Type _} (f : ℕ → α) (n : ℕ) :
    ((List.range n).map f).reverse = (List.range n).map fun i => f (n - 1 - i) := by
  induction n generalizing f with
  | zero => rfl
  | succ n ih =>
      rw [map_range_succ_left (fun i => f (n + 1 - 1 - i)) n]
      rw [List.range_succ, List.map_append, List.reverse_append]
      simp only [List.map_cons, List.map_nil, List.reverse_cons, List.reverse_nil,
        List.nil_append, List.singleton_append]
      rw [ih f]
      exact congrArg₂ _ (congrArg f (by omega))
        (List.map_congr_left fun i _ => congrArg f (by omega))

lemma dropLast_map_range {α : Type _} (f : ℕ → α) (n : ℕ) :
    ((List.range (n + 1)).map f).dropLast = (List.range n).map f := by
  rw [List.range_succ, List.map_append]
  simp

lemma getLastD_map_range {α : Type _} (f : ℕ → α) (n : ℕ) (dflt : α) :
    ((List.range (n + 1)).map f).getLastD dflt = f n := by
  rw [List.range_succ, List.map_append]
  simp

/-- Reference value of the coefficient matrix after phase C's backward
convergence: the seed `A0` driven backward through the phase-C `R` factors
`R_list2 = [clvR b0 n_B, …, clvR b0 (n_B + n_C - 1)]`. -/
noncomputable def clvA1 {d p : ℕ} (next : DynamicalSystem d → DynamicalSystem d)
    (nl : DynamicalSystem d → Matrix (Fin d) (Fin p) ℝ → Matrix (Fin d) (Fin p) ℝ)
    (b0 : DynamicalSystem d × Matrix (Fin d) (Fin p) ℝ) (n_B n_C : ℕ)
    (A0 : Matrix (Fin p) (Fin p) ℝ) : Matrix (Fin p) (Fin p) ℝ :=
  backConverge ((List.range n_C).map fun k => clvR next nl b0 (n_B + k)) A0

lemma clvPhiList_eq {d p : ℕ} (next : DynamicalSystem d → DynamicalSystem d)
    (nl : DynamicalSystem d → Matrix (Fin d) (Fin p) ℝ → Matrix (Fin d) (Fin p) ℝ)
    (b0 : DynamicalSystem d × Matrix (Fin d) (Fin p) ℝ) (n_B : ℕ) :
    clvPhiList next nl b0 n_B = (List.range (n_B + 1)).map (clvW next nl b0) := by
  rw [clvPhiList, clvPhaseB_spec, map_range_succ_left (clvW next nl b0) n_B]
  rfl

lemma clvRList1_eq {d p : ℕ} (next : DynamicalSystem d → DynamicalSystem d)
    (nl : DynamicalSystem d → Matrix (Fin d) (Fin p) ℝ → Matrix (Fin d) (Fin p) ℝ)
    (b0 : DynamicalSystem d × Matrix (Fin d) (Fin p) ℝ) (n_B : ℕ) :
    clvRList1 next nl b0 n_B = (List.range n_B).map fun k => clvR next nl b0 k := by
  rw [clvRList1, clvPhaseB_spec]

lemma clvRList2_eq {d p : ℕ} (next : DynamicalSystem d → DynamicalSystem d)
    (nl : DynamicalSystem d → Matrix (Fin d) (Fin p) ℝ → Matrix (Fin d) (Fin p) ℝ)
    (b0 : DynamicalSystem d × Matrix (Fin d) (Fin p) ℝ) (n_B n_C : ℕ) :
    (clvPhaseC next nl (clvPhaseB next nl b0 n_B).2.2.2 n_C).1 =
      (List.range n_C).map fun k => clvR next nl b0 (n_B + k) := by
  rw [clvPhaseB_spec]
  show (clvPhaseC next nl (clvPhaseA next nl b0 n_B) n_C).1 = _
  rw [clvPhaseC_spec]
  show (List.range n_C).map (fun k => clvR next nl (clvPhaseA next nl b0 n_B) k) = _
  refine List.map_congr_left fun k _ => ?_
  show (clvStep next nl (clvPhaseA next nl (clvPhaseA next nl b0 n_B) k)).2 = _
  rw [← clvPhaseA_add]
  rfl

/-- Closed form of the CLV list returned by `CLV`: entry `i < n_B` is the
column-normalized `Φ_i · A_{n_B - i}` (with `A_m` the backward recursion
`clvAseq` started from the phase-C limit `clvA1`), and the final entry
`n_B` is `Φ_{n_B} · A_0` — the seed `Phi_list[-1] @ A`, not normalized. -/
lemma CLV_fst_closed {d p : ℕ} (next : DynamicalSystem d → DynamicalSystem d)
    (nl : DynamicalSystem d → Matrix (Fin d) (Fin p) ℝ → Matrix (Fin d) (Fin p) ℝ)
    (system : DynamicalSystem d) (n_forward n_A n_B n_C : ℕ) (traj check : Bool)
    (A0 : Matrix (Fin p) (Fin p) ℝ) :
    (CLV next nl system n_forward n_A n_B n_C traj check A0).1 =
      ((List.range n_B).map fun i =>
        normalizeCols (clvW next nl (clvB0 next nl system n_forward n_A) i
          * clvAseq (fun m => clvR next nl (clvB0 next nl system n_forward n_A)
                (n_B - 1 - m))
              (clvA1 next nl (clvB0 next nl system n_forward n_A) n_B n_C A0)
              (n_B - i)))
      ++ [clvW next nl (clvB0 next nl system n_forward n_A) n_B
            * clvA1 next nl (clvB0 next nl system n_forward n_A) n_B n_C A0] := by
  have hA1 : backConverge
      (clvPhaseC next nl
        (clvPhaseB next nl (clvB0 next nl system n_forward n_A) n_B).2.2.2 n_C).1 A0
      = clvA1 next nl (clvB0 next nl system n_forward n_A) n_B n_C A0 := by
    rw [clvRList2_eq]
    rfl
  show (((clvPhiList next nl (clvB0 next nl system n_forward n_A) n_B).getLastD 0
      * backConverge (clvPhaseC next nl
          (clvPhaseB next nl (clvB0 next nl system n_forward n_A) n_B).2.2.2 n_C).1 A0)
    :: clvLoop
        (backConverge (clvPhaseC next nl
          (clvPhaseB next nl (clvB0 next nl system n_forward n_A) n_B).2.2.2 n_C).1 A0)
        (((clvPhiList next nl (clvB0 next nl system n_forward n_A) n_B).dropLast.reverse).zip
          (clvRList1 next nl (clvB0 next nl system n_forward n_A) n_B).reverse)).reverse
    = _
  rw [hA1, clvPhiList_eq, clvRList1_eq, getLastD_map_range, dropLast_map_range,
    reverse_map_range (clvW next nl (clvB0 next nl system n_forward n_A)) n_B,
    reverse_map_range (fun k => clvR next nl (clvB0 next nl system n_forward n_A) k) n_B,
    List.zip_map']
  rw [clvLoop_map n_B
    (fun m => clvW next nl (clvB0 next nl system n_forward n_A) (n_B - 1 - m))
    (fun m => clvR next nl (clvB0 next nl system n_forward n_A) (n_B - 1 - m))
    (clvA1 next nl (clvB0 next nl system n_forward n_A) n_B n_C A0)]
  rw [List.reverse_cons,
    reverse_map_range (fun m =>
      normalizeCols (clvW next nl (clvB0 next nl system n_forward n_A) (n_B - 1 - m)
        * clvAseq (fun k => clvR next nl (clvB0 next nl system n_forward n_A) (n_B - 1 - k))
            (clvA1 next nl (clvB0 next nl system n_forward n_A) n_B n_C A0) (m + 1))) n_B]
  refine congrArg₂ _ ?_ rfl
  refine List.map_congr_left fun i hi => ?_
  have hilt : i < n_B := List.mem_range.mp hi
  rw [show n_B - 1 - (n_B - 1 - i) = i by omega, show n_B - 1 - i + 1 = n_B - i by omega]

/-- C9: the CLV list has exactly `n_B + 1` entries in forward chronological
order (internally built reversed and reversed once at the end — the closed
form below exhibits entry `i` as the step-`i` basis and entry `n_B` as the
`Phi_list[-1] @ A` seed); `Phi_list` has `n_B + 1` entries (`Φ_k` is the
step-`k` bundle, phase-A endpoint included) and `R_list1` has `n_B`; and
with `traj = True` the returned trajectory has exactly `n_B + 1` rows, row
`i` being the state at step `i` of the recording window (row `0` the state
at its start), aligned with the CLV sequence. -/
theorem CLV_structure {d p : ℕ} (next : DynamicalSystem d → DynamicalSystem d)
    (nl : DynamicalSystem d → Matrix (Fin d) (Fin p) ℝ → Matrix (Fin d) (Fin p) ℝ)
    (system : DynamicalSystem d) (n_forward n_A n_B n_C : ℕ) (traj check : Bool)
    (A0 : Matrix (Fin p) (Fin p) ℝ) :
    (CLV next nl system n_forward n_A n_B n_C traj check A0).1 =
      ((List.range n_B).map fun i =>
        normalizeCols (clvW next nl (clvB0 next nl system n_forward n_A) i
          * clvAseq (fun m => clvR next nl (clvB0 next nl system n_forward n_A)
                (n_B - 1 - m))
              (clvA1 next nl (clvB0 next nl system n_forward n_A) n_B n_C A0)
              (n_B - i)))
        ++ [clvW next nl (clvB0 next nl system n_forward n_A) n_B
              * clvA1 next nl (clvB0 next nl system n_forward n_A) n_B n_C A0]
    ∧ (CLV next nl system n_forward n_A n_B n_C traj check A0).1.length = n_B + 1
    ∧ (clvPhiList next nl (clvB0 next nl system n_forward n_A) n_B).length = n_B + 1
    ∧ (clvRList1 next nl (clvB0 next nl system n_forward n_A) n_B).length = n_B
    ∧ (CLV next nl system n_forward n_A n_B n_C true check A0).2.1 =
        some ((List.range (n_B + 1)).map fun i =>
          (clvSys next nl (clvB0 next nl system n_forward n_A) i).x)
    ∧ (CLV next nl system n_forward n_A n_B n_C false check A0).2.1 = none
    ∧ ((CLV next nl system n_forward n_A n_B n_C true check A0).2.1.getD []).getD 0
        (fun _ => 0) = (clvB0 next nl system n_forward n_A).1.x := by
  have htraj : (CLV next nl system n_forward n_A n_B n_C true check A0).2.1 =
      some ((List.range (n_B + 1)).map fun i =>
        (clvSys next nl (clvB0 next nl system n_forward n_A) i).x) := by
    show some ((clvB0 next nl system n_forward n_A).1.x
        :: (clvPhaseB next nl (clvB0 next nl system n_forward n_A) n_B).2.2.1) = _
    rw [clvPhaseB_spec,
      map_range_succ_left (fun i =>
        (clvSys next nl (clvB0 next nl system n_forward n_A) i).x) n_B]
    rfl
  refine ⟨CLV_fst_closed next nl system n_forward n_A n_B n_C traj check A0,
    ?_, ?_, ?_, htraj, rfl, ?_⟩
  · rw [CLV_fst_closed next nl system n_forward n_A n_B n_C traj check A0]
    simp
  · rw [clvPhiList_eq]
    simp
  · rw [clvRList1_eq]
    simp
  · rw [htraj,
      map_range_succ_left (fun i =>
        (clvSys next nl (clvB0 next nl system n_forward n_A) i).x) n_B]
    rfl

lemma colNorm_normalizeCols {d p : ℕ} (M : Matrix (Fin d) (Fin p) ℝ) (j : Fin p)
    (h : colNorm M j ≠ 0) : colNorm (normalizeCols M) j = 1 := by
  have hnn : (0 : ℝ) ≤ dotv (fun i => M i j) (fun i => M i j) :=
    Finset.sum_nonneg fun i _ => mul_self_nonneg _
  have hc : 0 ≤ colNorm M j := Real.sqrt_nonneg _
  show Real.sqrt (dotv (fun i => M i j / colNorm M j) (fun i => M i j / colNorm M j)) = 1
  have h2 : dotv (fun i => M i j / colNorm M j) (fun i => M i j / colNorm M j)
      = dotv (fun i => M i j) (fun i => M i j) / (colNorm M j * colNorm M j) := by
    show (∑ i, M i j / colNorm M j * (M i j / colNorm M j)) = _
    rw [dotv, Finset.sum_div]
    exact Finset.sum_congr rfl fun i _ => by ring
  rw [h2, Real.sqrt_div hnn, Real.sqrt_mul_self hc]
  exact div_self h

/-- C1 (amended): every matrix of the returned CLV sequence except the
chronologically last has unit-norm columns (provided the pre-normalization
column is nonzero, which holds generically); the last entry is the seed
`Phi_list[-1] @ A` and is *not* normalized — its columns have the norms of
the columns of `A`, not `1` in general (see the counterexample). -/
theorem CLV_unit_columns_except_last {d p : ℕ}
    (next : DynamicalSystem d → DynamicalSystem d)
    (nl : DynamicalSystem d → Matrix (Fin d) (Fin p) ℝ → Matrix (Fin d) (Fin p) ℝ)
    (system : DynamicalSystem d) (n_forward n_A n_B n_C : ℕ) (traj check : Bool)
    (A0 : Matrix (Fin p) (Fin p) ℝ) :
    (∀ (i : ℕ) (j : Fin p), i < n_B →
      colNorm (clvW next nl (clvB0 next nl system n_forward n_A) i
        * clvAseq (fun m => clvR next nl (clvB0 next nl system n_forward n_A)
              (n_B - 1 - m))
            (clvA1 next nl (clvB0 next nl system n_forward n_A) n_B n_C A0)
            (n_B - i)) j ≠ 0 →
      colNorm ((CLV next nl system n_forward n_A n_B n_C traj check A0).1.getD i 0) j = 1)
    ∧ (CLV next nl system n_forward n_A n_B n_C traj check A0).1.getD n_B 0
        = clvW next nl (clvB0 next nl system n_forward n_A) n_B
          * clvA1 next nl (clvB0 next nl system n_forward n_A) n_B n_C A0 := by
  constructor
  · intro i j hi h
    rw [CLV_fst_closed, List.getD_append _ _ _ _ (by simpa using hi),
      List.getD_eq_getElem?_getD, List.getElem?_map, List.getElem?_range hi]
    simp only [Option.map_some', Option.getD_some]
    exact colNorm_normalizeCols _ j h
  · rw [CLV_fst_closed, List.getD_append_right _ _ _ _ (by simp)]
    simp

lemma gsList_one {d : ℕ} (W : Matrix (Fin d) (Fin 1) ℝ) :
    gsList W 1 = [unitv (fun r => W r 0)] := by
  show [] ++ [unitv (colOf W 0 - (List.map (fun q => dotv q (colOf W 0) • q) []).sum)] = _
  rw [List.map_nil, List.sum_nil, sub_zero, List.nil_append]
  refine congrArg (fun v => [unitv v]) ?_
  funext r
  show (if h : (0 : ℕ) < 1 then W r ⟨0, h⟩ else 0) = W r 0
  rw [dif_pos (by omega)]
  exact congrArg (W r) (Subsingleton.elim _ _)

lemma qrQ_one_col {d : ℕ} (W : Matrix (Fin d) (Fin 1) ℝ) :
    qrQ W = fun i _ => unitv (fun r => W r 0) i := by
  funext i j
  show ((gsList W 1).getD (j : ℕ) 0) i = _
  have hj : (j : ℕ) = 0 := by omega
  rw [hj, gsList_one]
  rfl

lemma qrR_one_col {d : ℕ} (W : Matrix (Fin d) (Fin 1) ℝ) :
    qrR W = fun _ _ => dotv (unitv (fun r => W r 0)) (fun r => W r 0) := by
  funext j k
  show (if (j : ℕ) ≤ (k : ℕ)
    then dotv ((gsList W 1).getD (j : ℕ) 0) (colOf W (k : ℕ)) else 0) = _
  have hj : (j : ℕ) = 0 := by omega
  have hk : (k : ℕ) = 0 := by omega
  rw [hj, hk, if_pos (le_refl 0), gsList_one]
  show dotv (unitv fun r => W r 0) (colOf W 0) = _
  refine congrArg _ ?_
  funext r
  show (if h : (0 : ℕ) < 1 then W r ⟨0, h⟩ else 0) = W r 0
  rw [dif_pos (by omega)]
  exact congrArg (W r) (Subsingleton.elim _ _)

/-- A concrete two-dimensional discrete system with constant Jacobian
`diag(2, 1)`, used to exhibit the non-normalized last CLV entry. -/
noncomputable def diagSys : DynamicalSystem 2 where
  x0 := ![1, 0]
  t0 := 0
  x := ![1, 0]
  t := 0
  f := fun x _ => x
  jac := fun _ _ => !![2, 0; 0, 1]
  dt := 1

/-- The column `(2, 0)` as a `2 × 1` matrix. -/
noncomputable def c1TwoCol : Matrix (Fin 2) (Fin 1) ℝ := fun i _ => ![(2 : ℝ), 0] i

/-- The column `(1/2, 0)` as a `2 × 1` matrix. -/
noncomputable def c1Half : Matrix (Fin 2) (Fin 1) ℝ := fun i _ => ![(1 : ℝ) / 2, 0] i

lemma c1_J_mul_E : (!![(2 : ℝ), 0; 0, 1]) * eyeCols 2 1 = c1TwoCol := by
  funext i j
  have hj : j = 0 := Subsingleton.elim _ _
  subst hj
  fin_cases i <;>
    simp [Matrix.mul_apply, Fin.sum_univ_two, eyeCols, c1TwoCol]

lemma c1_normv_two : normv ![(2 : ℝ), 0] = 2 := by
  have h : dotv ![(2 : ℝ), 0] ![(2 : ℝ), 0] = 4 := by
    simp [dotv, Fin.sum_univ_two]
    norm_num
  rw [normv, h, show (4 : ℝ) = 2 ^ 2 by norm_num,
    Real.sqrt_sq (by norm_num : (0 : ℝ) ≤ 2)]

lemma c1_unitv_two : unitv ![(2 : ℝ), 0] = ![1, 0] := by
  funext i
  fin_cases i <;> simp [unitv, c1_normv_two]

lemma c1_qrQ_two : qrQ c1TwoCol = eyeCols 2 1 := by
  rw [qrQ_one_col]
  funext i j
  show unitv (fun r => c1TwoCol r 0) i = eyeCols 2 1 i j
  have hcol : (fun r => c1TwoCol r 0) = ![(2 : ℝ), 0] := rfl
  rw [hcol, c1_unitv_two]
  have hj : j = 0 := Subsingleton.elim _ _
  subst hj
  fin_cases i <;> simp [eyeCols]

lemma c1_qrR_two : qrR c1TwoCol = !![2] := by
  rw [qrR_one_col]
  funext j k
  have hj : j = 0 := Subsingleton.elim _ _
  have hk : k = 0 := Subsingleton.elim _ _
  subst hj
  subst hk
  show dotv (unitv fun r => c1TwoCol r 0) (fun r => c1TwoCol r 0) = _
  have hcol : (fun r => c1TwoCol r 0) = ![(2 : ℝ), 0] := rfl
  rw [hcol, c1_unitv_two]
  simp [dotv, Fin.sum_univ_two]

lemma c1_inv_two : (!![(2 : ℝ)])⁻¹ = !![1 / 2] := by
  have h : (!![(2 : ℝ)]) * !![1 / 2] = 1 := by
    funext i j
    have hi : i = 0 := Subsingleton.elim _ _
    have hj : j = 0 := Subsingleton.elim _ _
    subst hi
    subst hj
    simp [Matrix.mul_apply, Fin.sum_univ_one, Matrix.one_apply]
  exact Matrix.inv_eq_right_inv h

lemma c1_colNorm_halfMat : colNorm (!![(1 : ℝ) / 2]) 0 = 1 / 2 := by
  have h : dotv (fun i => !![(1 : ℝ) / 2] i 0) (fun i => !![(1 : ℝ) / 2] i 0)
      = (1 / 2) * (1 / 2) := by
    simp [dotv, Fin.sum_univ_one]
  show Real.sqrt _ = _
  rw [h, Real.sqrt_mul_self (by norm_num : (0 : ℝ) ≤ 1 / 2)]

lemma c1_normalize_halfMat : normalizeCols !![(1 : ℝ) / 2] = !![1] := by
  funext i j
  have hi : i = 0 := Subsingleton.elim _ _
  have hj : j = 0 := Subsingleton.elim _ _
  subst hi
  subst hj
  show !![(1 : ℝ) / 2] 0 0 / colNorm !![(1 : ℝ) / 2] 0 = !![(1 : ℝ)] 0 0
  rw [c1_colNorm_halfMat]
  simp

lemma c1_backStep : backStep !![(2 : ℝ)] !![1 / 2] = !![1 / 2] := by
  show npSolve !![(2 : ℝ)] (normalizeCols !![1 / 2]) = _
  rw [c1_normalize_halfMat]
  show (!![(2 : ℝ)])⁻¹ * !![1] = _
  rw [c1_inv_two]
  funext i j
  have hi : i = 0 := Subsingleton.elim _ _
  have hj : j = 0 := Subsingleton.elim _ _
  subst hi
  subst hj
  simp [Matrix.mul_apply, Fin.sum_univ_one]

lemma c1_phase (k : ℕ) : ∀ (s : DynamicalSystem 2),
    s.jac = (fun _ _ => !![(2 : ℝ), 0; 0, 1]) →
    (clvPhaseA DiscreteDS.next (@DiscreteDS.next_LTM 2 1) (s, eyeCols 2 1) k).2
        = eyeCols 2 1
    ∧ ((clvPhaseA DiscreteDS.next (@DiscreteDS.next_LTM 2 1) (s, eyeCols 2 1) k).1).jac
        = fun _ _ => !![(2 : ℝ), 0; 0, 1] := by
  induction k with
  | zero => exact fun s hs => ⟨rfl, hs⟩
  | succ k ih =>
      intro s hs
      have hnl : DiscreteDS.next_LTM s (eyeCols 2 1) = c1TwoCol := by
        show s.jac s.x s.t * eyeCols 2 1 = _
        rw [hs]
        exact c1_J_mul_E
      have hstep : (clvStep DiscreteDS.next (@DiscreteDS.next_LTM 2 1)
          (s, eyeCols 2 1)).1 = ((forward DiscreteDS.next s 1 false).1, eyeCols 2 1) := by
        show ((forward DiscreteDS.next s 1 false).1,
          qrQ (DiscreteDS.next_LTM s (eyeCols 2 1))) = _
        rw [hnl, c1_qrQ_two]
      have hs' : ((forward DiscreteDS.next s 1 false).1).jac
          = fun _ _ => !![(2 : ℝ), 0; 0, 1] := by
        rw [forward_one]
        exact hs
      show (clvPhaseA DiscreteDS.next (@DiscreteDS.next_LTM 2 1)
          (clvStep DiscreteDS.next (@DiscreteDS.next_LTM 2 1) (s, eyeCols 2 1)).1 k).2
            = eyeCols 2 1
        ∧ ((clvPhaseA DiscreteDS.next (@DiscreteDS.next_LTM 2 1)
          (clvStep DiscreteDS.next (@DiscreteDS.next_LTM 2 1) (s, eyeCols 2 1)).1 k).1).jac
            = fun _ _ => !![(2 : ℝ), 0; 0, 1]
      rw [hstep]
      exact ih _ hs'

lemma c1_clvW (k : ℕ) :
    clvW DiscreteDS.next (@DiscreteDS.next_LTM 2 1) (diagSys, eyeCols 2 1) k
      = eyeCols 2 1 :=
  (c1_phase k diagSys rfl).1

lemma c1_clvR (k : ℕ) :
    clvR DiscreteDS.next (@DiscreteDS.next_LTM 2 1) (diagSys, eyeCols 2 1) k
      = !![2] := by
  have h1 := (c1_phase k diagSys rfl).1
  have h2 := (c1_phase k diagSys rfl).2
  show qrR (DiscreteDS.next_LTM
    (clvPhaseA DiscreteDS.next (@DiscreteDS.next_LTM 2 1) (diagSys, eyeCols 2 1) k).1
    (clvPhaseA DiscreteDS.next (@DiscreteDS.next_LTM 2 1) (diagSys, eyeCols 2 1) k).2) = _
  rw [h1]
  have hnl : DiscreteDS.next_LTM
      (clvPhaseA DiscreteDS.next (@DiscreteDS.next_LTM 2 1) (diagSys, eyeCols 2 1) k).1
      (eyeCols 2 1) = c1TwoCol := by
    show (clvPhaseA DiscreteDS.next (@DiscreteDS.next_LTM 2 1)
      (diagSys, eyeCols 2 1) k).1.jac _ _ * eyeCols 2 1 = _
    rw [h2]
    exact c1_J_mul_E
  rw [hnl, c1_qrR_two]

lemma c1_b0 : clvB0 DiscreteDS.next (@DiscreteDS.next_LTM 2 1) diagSys 0 0
    = (diagSys, eyeCols 2 1) := rfl

lemma c1_A1 : clvA1 DiscreteDS.next (@DiscreteDS.next_LTM 2 1)
    (diagSys, eyeCols 2 1) 1 1 !![(1 : ℝ) / 2] = !![1 / 2] := by
  show backConverge ((List.range 1).map fun k =>
    clvR DiscreteDS.next (@DiscreteDS.next_LTM 2 1) (diagSys, eyeCols 2 1) (1 + k))
    !![(1 : ℝ) / 2] = _
  rw [map_range_succ_left (fun k =>
    clvR DiscreteDS.next (@DiscreteDS.next_LTM 2 1) (diagSys, eyeCols 2 1) (1 + k)) 0]
  rw [List.range_zero, List.map_nil, c1_clvR (1 + 0)]
  show backStep !![(2 : ℝ)] !![(1 : ℝ) / 2] = _
  exact c1_backStep

lemma c1_Aseq1 : clvAseq (fun m =>
      clvR DiscreteDS.next (@DiscreteDS.next_LTM 2 1) (diagSys, eyeCols 2 1) (1 - 1 - m))
    (!![(1 : ℝ) / 2]) 1 = !![1 / 2] := by
  show backStep (clvR DiscreteDS.next (@DiscreteDS.next_LTM 2 1)
    (diagSys, eyeCols 2 1) (1 - 1 - 0)) !![(1 : ℝ) / 2] = _
  rw [c1_clvR (1 - 1 - 0)]
  exact c1_backStep

lemma c1_E_mul_half : eyeCols 2 1 * !![(1 : ℝ) / 2] = c1Half := by
  funext i j
  have hj : j = 0 := Subsingleton.elim _ _
  subst hj
  fin_cases i <;>
    simp [Matrix.mul_apply, Fin.sum_univ_one, eyeCols, c1Half]

lemma c1_colNorm_half : colNorm c1Half 0 = 1 / 2 := by
  have h : dotv (fun i => c1Half i 0) (fun i => c1Half i 0) = (1 / 2) * (1 / 2) := by
    simp [dotv, Fin.sum_univ_two, c1Half]
  show Real.sqrt _ = _
  rw [h, Real.sqrt_mul_self (by norm_num : (0 : ℝ) ≤ 1 / 2)]

lemma c1_normalize_half : normalizeCols c1Half = eyeCols 2 1 := by
  funext i j
  have hj : j = 0 := Subsingleton.elim _ _
  subst hj
  show c1Half i 0 / colNorm c1Half 0 = eyeCols 2 1 i 0
  rw [c1_colNorm_half]
  fin_cases i <;> simp [c1Half, eyeCols]

lemma c1_list : (CLV DiscreteDS.next (@DiscreteDS.next_LTM 2 1) diagSys 0 0 1 1
    false false !![(1 : ℝ) / 2]).1 = [eyeCols 2 1, c1Half] := by
  rw [CLV_fst_closed, c1_b0]
  rw [map_range_succ_left (fun i => normalizeCols
    (clvW DiscreteDS.next (@DiscreteDS.next_LTM 2 1) (diagSys, eyeCols 2 1) i
      * clvAseq (fun m => clvR DiscreteDS.next (@DiscreteDS.next_LTM 2 1)
            (diagSys, eyeCols 2 1) (1 - 1 - m))
          (clvA1 DiscreteDS.next (@DiscreteDS.next_LTM 2 1)
            (diagSys, eyeCols 2 1) 1 1 !![(1 : ℝ) / 2]) (1 - i))) 0]
  rw [List.range_zero, List.map_nil, c1_A1, c1_Aseq1, c1_clvW 1]
  show [normalizeCols
      (clvW DiscreteDS.next (@DiscreteDS.next_LTM 2 1) (diagSys, eyeCols 2 1) 0
        * !![(1 : ℝ) / 2])] ++ [eyeCols 2 1 * !![(1 : ℝ) / 2]] = _
  rw [show clvW DiscreteDS.next (@DiscreteDS.next_LTM 2 1) (diagSys, eyeCols 2 1) 0
      = eyeCols 2 1 from rfl]
  rw [c1_E_mul_half, c1_normalize_half]
  rfl

/-- Counterexample to C1 as stated: for the concrete discrete system
`diagSys` (Jacobian `diag(2, 1)`) with `p = 1`, `n_forward = n_A = 0`,
`n_B = n_C = 1` and random seed `A = [[1/2]]`, the chronologically last
matrix of the returned CLV sequence — the entry seeded as
`Phi_list[-1] @ A` — has column norm `1/2`, not `1`. -/
theorem CLV_last_not_unit_norm :
    colNorm (((CLV DiscreteDS.next (@DiscreteDS.next_LTM 2 1) diagSys 0 0 1 1
        false false !![(1 : ℝ) / 2]).1).getD 1 0) 0 = 1 / 2
    ∧ ¬ (∀ M ∈ (CLV DiscreteDS.next (@DiscreteDS.next_LTM 2 1) diagSys 0 0 1 1
        false false !![(1 : ℝ) / 2]).1, ∀ j : Fin 1, colNorm M j = 1) := by
  constructor
  · rw [c1_list]
    show colNorm c1Half 0 = 1 / 2
    exact c1_colNorm_half
  · intro hall
    have hmem : c1Half ∈ (CLV DiscreteDS.next (@DiscreteDS.next_LTM 2 1) diagSys 0 0 1 1
        false false !![(1 : ℝ) / 2]).1 := by
      rw [c1_list]
      exact List.mem_cons_of_mem _ (List.mem_cons_self _ _)
    have h := hall c1Half hmem 0
    rw [c1_colNorm_half] at h
    norm_num at h

lemma c1_prenorm : clvW DiscreteDS.next (@DiscreteDS.next_LTM 2 1)
      (clvB0 DiscreteDS.next (@DiscreteDS.next_LTM 2 1) diagSys 0 0) 0
    * clvAseq (fun m => clvR DiscreteDS.next (@DiscreteDS.next_LTM 2 1)
          (clvB0 DiscreteDS.next (@DiscreteDS.next_LTM 2 1) diagSys 0 0) (1 - 1 - m))
        (clvA1 DiscreteDS.next (@DiscreteDS.next_LTM 2 1)
          (clvB0 DiscreteDS.next (@DiscreteDS.next_LTM 2 1) diagSys 0 0) 1 1
          !![(1 : ℝ) / 2]) (1 - 0) = c1Half := by
  rw [c1_b0, c1_A1, c1_Aseq1]
  rw [show clvW DiscreteDS.next (@DiscreteDS.next_LTM 2 1) (diagSys, eyeCols 2 1) 0
      = eyeCols 2 1 from rfl]
  exact c1_E_mul_half

lemma c1_prenorm_ne : colNorm (clvW DiscreteDS.next (@DiscreteDS.next_LTM 2 1)
      (clvB0 DiscreteDS.next (@DiscreteDS.next_LTM 2 1) diagSys 0 0) 0
    * clvAseq (fun m => clvR DiscreteDS.next (@DiscreteDS.next_LTM 2 1)
          (clvB0 DiscreteDS.next (@DiscreteDS.next_LTM 2 1) diagSys 0 0) (1 - 1 - m))
        (clvA1 DiscreteDS.next (@DiscreteDS.next_LTM 2 1)
          (clvB0 DiscreteDS.next (@DiscreteDS.next_LTM 2 1) diagSys 0 0) 1 1
          !![(1 : ℝ) / 2]) (1 - 0)) 0 ≠ 0 := by
  rw [c1_prenorm, c1_colNorm_half]
  norm_num

/-- Witness for the amended C1: at the concrete input of the counterexample,
the non-final entry `i = 0` does have a unit-norm column (both hypotheses of
the theorem discharged there). -/
theorem CLV_unit_columns_except_last_witness :
    0 < 1
    ∧ colNorm (clvW DiscreteDS.next (@DiscreteDS.next_LTM 2 1)
          (clvB0 DiscreteDS.next (@DiscreteDS.next_LTM 2 1) diagSys 0 0) 0
        * clvAseq (fun m => clvR DiscreteDS.next (@DiscreteDS.next_LTM 2 1)
              (clvB0 DiscreteDS.next (@DiscreteDS.next_LTM 2 1) diagSys 0 0) (1 - 1 - m))
            (clvA1 DiscreteDS.next (@DiscreteDS.next_LTM 2 1)
              (clvB0 DiscreteDS.next (@DiscreteDS.next_LTM 2 1) diagSys 0 0) 1 1
              !![(1 : ℝ) / 2]) (1 - 0)) 0 ≠ 0
    ∧ colNorm (((CLV DiscreteDS.next (@DiscreteDS.next_LTM 2 1) diagSys 0 0 1 1
        false false !![(1 : ℝ) / 2]).1).getD 0 0) 0 = 1 :=
  ⟨Nat.zero_lt_one, c1_prenorm_ne,
    (CLV_unit_columns_except_last DiscreteDS.next (@DiscreteDS.next_LTM 2 1) diagSys
      0 0 1 1 false false !![(1 : ℝ) / 2]).1 0 0 Nat.zero_lt_one c1_prenorm_ne⟩

/-- The last row `Vh[-1]` of a square matrix (the right-singular vector of
smallest singular value in `np.linalg.svd`'s `Vh` output), as a function of
the column index. -/
def lastRow {n : ℕ} (M : Matrix (Fin n) (Fin n) ℝ) : Fin n → ℝ :=
  fun c => M ⟨n - 1, Nat.sub_lt c.pos Nat.one_pos⟩ c

/-- Model of `CLV[n][:, columns]` for `columns = [0, …, p-1]` with `j` removed:
the matrix of all columns of `V` other than `j`, in increasing order. -/
def otherCols {d k : ℕ} (V : Matrix (Fin d) (Fin (k + 1)) ℝ) (j : Fin (k + 1)) :
    Matrix (Fin d) (Fin k) ℝ :=
  fun i c => V i (j.succAbove c)

/-- The per-column SVD fallback of `ADJ`: start from `np.zeros_like(CLV[n])`
and set column `j` to the normalized last row of `Vh` from the SVD of the
transpose of the other columns.  `np.linalg.svd` is an external collaborator
(LAPACK); it is modeled by the oracle argument `svdVh`, which returns the
`Vh` factor for a matrix of the given shape. -/
noncomputable def adjFallback {d : ℕ} : {p : ℕ} →
    ((m n : ℕ) → Matrix (Fin m) (Fin n) ℝ → Matrix (Fin n) (Fin n) ℝ) →
    Matrix (Fin d) (Fin p) ℝ → Matrix (Fin d) (Fin p) ℝ
  | 0, _, _ => 0
  | k + 1, svdVh, V => fun i j =>
      unitv (lastRow (svdVh k d (otherCols V j).transpose)) i

/-- Model of `np.transpose(CLV[n])` reindexed as a square matrix, available exactly
when `p = d` (otherwise `np.linalg.solve` raises a non-square error). -/
def vtSquare {d p : ℕ} (V : Matrix (Fin d) (Fin p) ℝ) (h : p = d) :
    Matrix (Fin d) (Fin d) ℝ :=
  fun i j => V.transpose (Fin.cast h.symm i) j

/-- The body of the `try/except` in `ADJ` for one CLV matrix: attempt
`ADJ_t = np.linalg.solve(np.transpose(V), np.eye(d))` followed by column
normalization; any failure of the solve — a non-square `Vᵀ` (`p ≠ d`) or a
singular one — lands in the `except` branch, the per-column SVD fallback. -/
noncomputable def adjEntry {d p : ℕ}
    (svdVh : (m n : ℕ) → Matrix (Fin m) (Fin n) ℝ → Matrix (Fin n) (Fin n) ℝ)
    (V : Matrix (Fin d) (Fin p) ℝ) : Matrix (Fin d) (Fin p) ℝ :=
  if h : p = d then
    haveI : Decidable (IsUnit (vtSquare V h).det) := Classical.propDecidable _
    if IsUnit (vtSquare V h).det then
      normalizeCols (fun i j => npSolve (vtSquare V h) 1 i (Fin.cast h j))
    else adjFallback svdVh V
  else adjFallback svdVh V

/-- Model of `ADJ(CLV)`: the loop over the CLV list appending one adjoint matrix per
time step is a map of `adjEntry`. -/
noncomputable def ADJ {d p : ℕ}
    (svdVh : (m n : ℕ) → Matrix (Fin m) (Fin n) ℝ → Matrix (Fin n) (Fin n) ℝ)
    (clvs : List (Matrix (Fin d) (Fin p) ℝ)) : List (Matrix (Fin d) (Fin p) ℝ) :=
  clvs.map (adjEntry svdVh)

lemma vtSquare_refl {d : ℕ} (V : Matrix (Fin d) (Fin d) ℝ) (h : d = d) :
    vtSquare V h = V.transpose := by
  funext i j
  show V.transpose (Fin.cast h.symm i) j = V.transpose i j
  exact congrFun (congrArg V.transpose (Fin.ext rfl)) j

/-- C2: `ADJ` maps each CLV matrix `V` to its dual basis: entrywise it is
`adjEntry` (first two conjuncts); when the solve succeeds — `Vᵀ` square and
invertible — the result is the column-normalized solution `Θ` of
`Vᵀ·Θ = I` (third conjunct, with the solve equation verified); the fallback
branch is taken exactly when the solve fails, i.e. when `Vᵀ` is non-square
(`p ≠ dim`) or singular (fourth and fifth conjuncts); and the fallback sets
column `j` to the normalized last `Vh` row of the SVD of the transpose of
the other columns (last conjunct). -/
theorem ADJ_solve_or_svd_fallback :
    (∀ (d p : ℕ)
      (svdVh : (m n : ℕ) → Matrix (Fin m) (Fin n) ℝ → Matrix (Fin n) (Fin n) ℝ)
      (clvs : List (Matrix (Fin d) (Fin p) ℝ)) (n : ℕ),
        (ADJ svdVh clvs).length = clvs.length
        ∧ (ADJ svdVh clvs)[n]? = (clvs[n]?).map (adjEntry svdVh))
    ∧ (∀ (d : ℕ)
      (svdVh : (m n : ℕ) → Matrix (Fin m) (Fin n) ℝ → Matrix (Fin n) (Fin n) ℝ)
      (V : Matrix (Fin d) (Fin d) ℝ), IsUnit V.transpose.det →
        adjEntry svdVh V = normalizeCols (npSolve V.transpose 1)
        ∧ V.transpose * npSolve V.transpose 1 = 1)
    ∧ (∀ (d p : ℕ)
      (svdVh : (m n : ℕ) → Matrix (Fin m) (Fin n) ℝ → Matrix (Fin n) (Fin n) ℝ)
      (V : Matrix (Fin d) (Fin p) ℝ), p ≠ d →
        adjEntry svdVh V = adjFallback svdVh V)
    ∧ (∀ (d : ℕ)
      (svdVh : (m n : ℕ) → Matrix (Fin m) (Fin n) ℝ → Matrix (Fin n) (Fin n) ℝ)
      (V : Matrix (Fin d) (Fin d) ℝ), ¬ IsUnit V.transpose.det →
        adjEntry svdVh V = adjFallback svdVh V)
    ∧ (∀ (d k : ℕ)
      (svdVh : (m n : ℕ) → Matrix (Fin m) (Fin n) ℝ → Matrix (Fin n) (Fin n) ℝ)
      (V : Matrix (Fin d) (Fin (k + 1)) ℝ) (i : Fin d) (j : Fin (k + 1)),
        adjFallback svdVh V i j
          = unitv (lastRow (svdVh k d (otherCols V j).transpose)) i) := by
  refine ⟨?_, ?_, ?_, ?_, ?_⟩
  · intro d p svdVh clvs n
    exact ⟨List.length_map clvs _, List.getElem?_map _ _ _⟩
  · intro d svdVh V hU
    constructor
    · rw [adjEntry, dif_pos rfl, vtSquare_refl V rfl, if_pos hU]
      refine congrArg normalizeCols ?_
      funext i j
      exact congrArg (npSolve V.transpose 1 i) (Fin.ext rfl)
    · show V.transpose * (V.transpose⁻¹ * 1) = 1
      rw [Matrix.mul_one]
      exact Matrix.mul_nonsing_inv _ hU
  · intro d p svdVh V hne
    rw [adjEntry, dif_neg hne]
  · intro d svdVh V hU
    rw [adjEntry, dif_pos rfl, vtSquare_refl V rfl, if_neg hU]
  · intro d k svdVh V i j
    rfl

/-- Witness for C2: the square invertible branch at the concrete input
`V = [[1]]` (with the identity as SVD oracle), the hypothesis discharged
there. -/
theorem ADJ_solve_or_svd_fallback_witness :
    IsUnit ((!![(1 : ℝ)]).transpose.det)
    ∧ adjEntry (fun _ n _ => (1 : Matrix (Fin n) (Fin n) ℝ)) !![(1 : ℝ)]
        = normalizeCols (npSolve (!![(1 : ℝ)]).transpose 1) :=
  ⟨by rw [Matrix.det_transpose, Matrix.det_fin_one_of]; exact isUnit_one,
    ((ADJ_solve_or_svd_fallback).2.1 1 (fun _ n _ => (1 : Matrix (Fin n) (Fin n) ℝ))
      !![(1 : ℝ)]
      (by rw [Matrix.det_transpose, Matrix.det_fin_one_of]; exact isUnit_one)).1⟩

/-- A fragment of `numpy`'s dynamic array values: rank 0 to rank 3.  It
models the package's scalar-system behavior, where the shapes produced by
`@` and `np.array([...])` depend on the ranks of the operands. -/
inductive NDArray where
  | scl : ℝ → NDArray
  | vec : List ℝ → NDArray
  | mat : List (List ℝ) → NDArray
  | arr3 : List (List (List ℝ)) → NDArray

/-- Dot product of two coordinate lists. -/
def dotL (a b : List ℝ) : ℝ := (List.zipWith (· * ·) a b).sum

/-- Transpose of a list-of-rows matrix. -/
def transposeL (M : List (List ℝ)) : List (List ℝ) :=
  (List.range (M.headD []).length).map fun j => M.map fun r => r.getD j 0

/-- Row-by-column product of two list matrices. -/
def matMulL (A B : List (List ℝ)) : List (List ℝ) :=
  A.map fun r => (transposeL B).map fun c => dotL r c

/-- Model of `(k,) @ (k, n)`: 1-d times 2-d, a row-vector product of shape `(n,)`. -/
def vecMatL (v : List ℝ) (B : List (List ℝ)) : List ℝ :=
  (transposeL B).map fun c => dotL v c

/-- Model of `(m, k) @ (k,)`: 2-d times 1-d, shape `(m,)`. -/
def matVecL (A : List (List ℝ)) (v : List ℝ) : List ℝ :=
  A.map fun r => dotL r v

/-- Model of `numpy`'s `@` on the modeled ranks: scalars are rejected, 1-d operands
follow the promote/squeeze rule of `np.matmul`, inner dimensions must
agree. -/
def npMatmul : NDArray → NDArray → Option NDArray
  | NDArray.vec a, NDArray.vec b =>
      if a.length = b.length then some (NDArray.scl (dotL a b)) else none
  | NDArray.vec a, NDArray.mat B =>
      if B.length = a.length then some (NDArray.vec (vecMatL a B)) else none
  | NDArray.mat A, NDArray.vec b =>
      if ∀ r ∈ A, r.length = b.length then some (NDArray.vec (matVecL A b)) else none
  | NDArray.mat A, NDArray.mat B =>
      if ∀ r ∈ A, r.length = B.length then some (NDArray.mat (matMulL A B)) else none
  | _, _ => none

/-- Model of `np.array([res])`: wrap a value in one more dimension.  Rank 4 and
higher are outside the modeled fragment (unreachable here: `@` outputs
rank ≤ 2). -/
def npWrap : NDArray → Option NDArray
  | NDArray.scl v => some (NDArray.vec [v])
  | NDArray.vec v => some (NDArray.mat [v])
  | NDArray.mat m => some (NDArray.arr3 [m])
  | NDArray.arr3 _ => none

/-- A discrete system in the dynamic-shape model: state list (its length is
`self.dim = len(x0)`), time, and the caller-supplied Jacobian returning a
`numpy` value of whatever rank the caller chose. -/
structure NDDiscreteDS where
  x : List ℝ
  t : ℝ
  jac : List ℝ → ℝ → NDArray

/-- Model of `DiscreteDS.next_LTM` in the dynamic-shape model:
`res = self.jac(x, t) @ W`; if `self.dim == 1` return `np.array([res])`,
else return `res`. -/
def NDDiscreteDS.next_LTM (s : NDDiscreteDS) (W : NDArray) : Option NDArray :=
  match npMatmul (s.jac s.x s.t) W with
  | none => none
  | some res => if s.x.length = 1 then npWrap res else some res

/-- Shape test: is the value a 2-d array of shape `r × c`? -/
def isMatShape : NDArray → ℕ → ℕ → Bool
  | NDArray.mat m, r, c => (m.length == r) && m.all fun row => row.length == c
  | _, _, _ => false

/-- Counterexample to C3 as stated: a `dim == 1` discrete system whose
Jacobian returns the documented `dim × dim` (that is, `1 × 1`) *matrix*.
On the 1-column bundle `[[1]]`, `res = jac @ W` is a `1 × 1` matrix, and
`np.array([res])` wraps it into a rank-3 array of shape `(1, 1, 1)` — not a
`1 × 1` matrix. -/
theorem discrete_dim1_tangent_shape_counterexample :
    NDDiscreteDS.next_LTM ⟨[0], 0, fun _ _ => NDArray.mat [[2]]⟩ (NDArray.mat [[1]])
        = some (NDArray.arr3 [[[2]]])
    ∧ isMatShape (NDArray.arr3 [[[2]]]) 1 1 = false := by
  constructor
  · show (match npMatmul (NDArray.mat [[(2 : ℝ)]]) (NDArray.mat [[1]]) with
      | none => none
      | some res => if ([(0 : ℝ)].length = 1) then npWrap res else some res) = _
    have h : npMatmul (NDArray.mat [[(2 : ℝ)]]) (NDArray.mat [[1]])
        = some (NDArray.mat [[2]]) := by
      rw [npMatmul, if_pos (by simp)]
      norm_num [matMulL, transposeL, dotL, List.range_succ]
    rw [h]
    norm_num [npWrap]
  · rfl

/-- C3 (amended): for a `dim == 1` discrete system whose Jacobian returns a
1-d array of length 1 — the shape the reshape branch is written for, and
the one produced by a scalar `jac` formula like the logistic map's — the
tangent step on a 1-column bundle `[[w]]` returns the `1 × 1` matrix
`[[a·w]]`, not a bare scalar; a Jacobian returning the documented `1 × 1`
matrix instead yields a rank-3 array (see the counterexample). -/
theorem discrete_dim1_tangent_reshape (a w x0 t : ℝ) :
    NDDiscreteDS.next_LTM ⟨[x0], t, fun _ _ => NDArray.vec [a]⟩ (NDArray.mat [[w]])
        = some (NDArray.mat [[a * w]])
    ∧ isMatShape (NDArray.mat [[a * w]]) 1 1 = true := by
  constructor
  · show (match npMatmul (NDArray.vec [a]) (NDArray.mat [[w]]) with
      | none => none
      | some res => if ([x0].length = 1) then npWrap res else some res) = _
    have h : npMatmul (NDArray.vec [a]) (NDArray.mat [[w]])
        = some (NDArray.vec [a * w]) := by
      rw [npMatmul, if_pos (by simp)]
      norm_num [vecMatL, transposeL, dotL, List.range_succ]
    rw [h]
    norm_num [npWrap]
  · rfl

end Lyapynov
